import Mathlib

/-!
Verification of the legacy-JavaScript detection engine
(`CodePatternMatcher`, `LegacyJavascript.buildPolyfillExpression`,
`LegacyJavascript.detectAcrossScripts`, `LegacyJavascript.estimateWastedBytes`).

Strings are modelled as `List Char`.  The combined scanning regex
`(^\r\n|\r|\n)|(p1)|(p2)|...` built by the `CodePatternMatcher` constructor is
modelled by a small regex AST (`RE`) covering exactly the constructs the
generated pattern expressions use, with JavaScript semantics: ordered
alternation, greedy quantifiers, full backtracking, `.` not matching line
terminators, and `\s` being the ECMAScript whitespace set.
-/

namespace LegacyJS

/-- Shorthand: Lean string literal to the `List Char` representation. -/
def str (s : String) : List Char := s.toList

/-- The ECMAScript `\s` character set (WhiteSpace and LineTerminator). -/
def jsSpace (c : Char) : Bool :=
  let n := c.toNat
  n == 9 || n == 10 || n == 11 || n == 12 || n == 13 || n == 32 ||
  n == 160 || n == 0x1680 || (0x2000 ≤ n && n ≤ 0x200a) ||
  n == 0x2028 || n == 0x2029 || n == 0x202f || n == 0x205f ||
  n == 0x3000 || n == 0xfeff

/-- Characters matched by the regex `.` (anything but a line terminator). -/
def jsDot (c : Char) : Bool :=
  let n := c.toNat
  !(n == 10 || n == 13 || n == 0x2028 || n == 0x2029)

/-- A single-quote character (written via its code point). -/
def quoteChar : Char := Char.ofNat 39

/-- The regex fragments generated by `buildPolyfillExpression` and the
transform patterns use only: literal characters, character classes,
concatenation, ordered alternation and greedy `*` / `?` / `+`. -/
inductive RE : Type
  | eps : RE
  | chr : Char → RE
  | cls : (Char → Bool) → RE
  | seq : RE → RE → RE
  | alt : RE → RE → RE
  | star : RE → RE

/-- Greedy `?`. -/
def RE.opt (r : RE) : RE := RE.alt r RE.eps

/-- Greedy `+`. -/
def RE.plus (r : RE) : RE := RE.seq r (RE.star r)

/-- Concatenation of a list of fragments (in order). -/
def REseq : List RE → RE
  | [] => RE.eps
  | [r] => r
  | r :: rest => RE.seq r (REseq rest)

/-- Ordered alternation of a list of fragments (tried left to right,
like the `|`-joined pieces of the generated expressions). -/
def REalt : List RE → RE
  | [] => RE.eps
  | [r] => r
  | r :: rest => RE.alt r (REalt rest)

/-- A literal string fragment (every character stands for itself). -/
def RElit (s : List Char) : RE := REseq (s.map RE.chr)

/-- A string interpolated *unescaped* into a regex source (the way
`buildPolyfillExpression` splices `object`, `property` and `coreJs3Module`
into the expression): every `.` in it is the regex "any char" metacharacter,
all other characters occurring in catalog names are literals. -/
def RErawLit (s : List Char) : RE :=
  REseq (s.map fun c => if c = '.' then RE.cls jsDot else RE.chr c)

/-- Backtracking matcher in continuation-passing style, mirroring how a
JavaScript regex engine tries a pattern at a fixed position: ordered
alternation takes the leftmost alternative that lets the rest of the match
succeed, `star` is greedy with full backtracking.  The continuation receives
the rest of the input after the part consumed by the pattern.  `fuel` bounds
the number of `star` unrollings; every starred sub-pattern in the generated
expressions consumes at least one character per iteration, so a fuel of
`input length + 1` is never exhausted on them. -/
def reMatchAux
    (next : RE → List Char → (List Char → Option (List Char)) →
      Option (List Char)) :
    RE → List Char → (List Char → Option (List Char)) → Option (List Char)
  | RE.eps, s, k => k s
  | RE.chr _, [], _ => none
  | RE.chr c, x :: xs, k => if x = c then k xs else none
  | RE.cls _, [], _ => none
  | RE.cls p, x :: xs, k => if p x then k xs else none
  | RE.seq a b, s, k => reMatchAux next a s (fun s1 => reMatchAux next b s1 k)
  | RE.alt a b, s, k =>
      (reMatchAux next a s k).orElse (fun _ => reMatchAux next b s k)
  | RE.star r, s, k =>
      (reMatchAux next r s (fun s1 => next r s1 k)).orElse (fun _ => k s)

/-- The matcher proper: `fuel` bounds the number of `star` re-entries along
a backtracking path (each re-entry of a starred sub-pattern of the generated
expressions consumes at least one character, so a fuel of
`input length + 1` is never exhausted on them); when fuel runs out a star
stops iterating. -/
def reMatch : Nat → RE → List Char → (List Char → Option (List Char)) →
    Option (List Char)
  | 0 => reMatchAux fun _ s1 k1 => k1 s1
  | n + 1 => reMatchAux fun r s1 k1 => reMatch n (RE.star r) s1 k1

/-- Try the pattern at the start of `s`; on success return the input left
over after the (backtracking-greedy) match. -/
def reMatchAt (r : RE) (s : List Char) : Option (List Char) :=
  reMatch (s.length + 1) r s some

/-- Whether the pattern can match the empty string. -/
def nullable : RE → Bool
  | RE.eps => true
  | RE.chr _ => false
  | RE.cls _ => false
  | RE.seq a b => nullable a && nullable b
  | RE.alt a b => nullable a || nullable b
  | RE.star _ => true

/-- Whether a match of the pattern can begin by consuming the character
`c` (first-character analysis). -/
def firstCan : RE → Char → Bool
  | RE.eps, _ => false
  | RE.chr d, c => c == d
  | RE.cls p, c => p c
  | RE.seq a b, c => firstCan a c || (nullable a && firstCan b c)
  | RE.alt a b, c => firstCan a c || firstCan b c
  | RE.star r, c => firstCan r c

end LegacyJS

namespace LegacyJS

/-- A detectable signal: name, regex expression, and (for transforms) a
byte-cost heuristic over the full file content.  Mirrors the `Pattern`
typedef `{name, expression, estimateBytes?}`. -/
structure Pattern where
  name : List Char
  expression : RE
  estimateBytes : Option (List Char → Int)

/-- A catalog entry `{name, modules, corejs?}` of the polyfill module data. -/
structure PolyfillModuleDataEntry where
  name : List Char
  modules : List (List Char)
  corejs : Bool
deriving DecidableEq, Repr

/-- `['"]token['"]` — the `qt` helper of `buildPolyfillExpression`. -/
def qt (token : List Char) : RE :=
  REseq [RE.cls (fun c => c = quoteChar || c = '"'), RElit token,
    RE.cls (fun c => c = quoteChar || c = '"')]

/-- Drop the first occurrence of `pat` from `s`
(JavaScript `String.prototype.replace` with a string argument and an empty
replacement, used for `object.replace('.prototype', '')`). -/
def removeFirst (pat : List Char) : List Char → List Char
  | [] => []
  | c :: rest =>
      if pat.isPrefixOf (c :: rest) then (c :: rest).drop pat.length
      else c :: removeFirst pat rest

/-- `LegacyJavascript.buildPolyfillExpression(object, property, coreJs3Module)`.
The source builds one `|`-joined regex-source string; this returns the same
alternation as an `RE`, fragment for fragment, in the same order.  `object`,
`property` and `coreJs3Module` are interpolated unescaped (`RErawLit`), so a
`.` inside them is the regex any-char metacharacter, exactly as in the
generated string. -/
def buildPolyfillExpression (object : Option (List Char))
    (property coreJs3Module : List Char) : RE :=
  let fragAssign : RE :=
    match object with
    | some obj =>
        -- `${object}\.${property}\s?=[^=]`
        REseq [RErawLit obj, RE.chr '.', RErawLit property,
          RE.opt (RE.cls jsSpace), RE.chr '=', RE.cls (fun c => !(c = '='))]
    | none =>
        -- `(?:window\.|[\s;]+)${property}\s?=[^=]`
        REseq [RE.alt (REseq [RElit (str "window"), RE.chr '.'])
            (RE.plus (RE.cls (fun c => jsSpace c || c = ';'))),
          RErawLit property,
          RE.opt (RE.cls jsSpace), RE.chr '=', RE.cls (fun c => !(c = '='))]
  let fragBracket : List RE :=
    match object with
    | some obj =>
        -- `${object}\[${qt(property)}\]\s?=[^=]`
        [REseq [RErawLit obj, RE.chr '[', qt property, RE.chr ']',
          RE.opt (RE.cls jsSpace), RE.chr '=', RE.cls (fun c => !(c = '='))]]
    | none => []
  let fragDefine : RE :=
    -- `defineProperty\(${object || 'window'},\s?${qt(property)}`
    REseq [RElit (str "defineProperty"), RE.chr '(',
      RErawLit (object.getD (str "window")), RE.chr ',',
      RE.opt (RE.cls jsSpace), qt property]
  let fragShims : List RE :=
    match object with
    | some obj =>
        -- `\(${object},\s*{${property}:.*},\s*{${property}`
        [REseq [RE.chr '(', RErawLit obj, RE.chr ',', RE.star (RE.cls jsSpace),
          RE.chr '\x7b', RErawLit property, RE.chr ':', RE.star (RE.cls jsDot),
          RE.chr '\x7d', RE.chr ',', RE.star (RE.cls jsSpace),
          RE.chr '\x7b', RErawLit property]]
    | none => []
  let fragCoreJs3 : List RE :=
    match object with
    | some obj =>
        -- `{target:${qt(objectWithoutPrototype)}\S*},{${property}:`
        [REseq [RElit (str "\x7btarget:"), qt (removeFirst (str ".prototype") obj),
          RE.star (RE.cls (fun c => !(jsSpace c))),
          RElit (str "\x7d,\x7b"), RErawLit property, RE.chr ':']]
    | none => []
  let fragModulePath : RE :=
    -- `core-js/modules/${coreJs3Module}"`
    REseq [RElit (str "core-js/modules/"), RErawLit coreJs3Module, RE.chr '"']
  REalt ([fragAssign] ++ fragBracket ++ [fragDefine] ++ fragShims ++
    fragCoreJs3 ++ [fragModulePath])

/-- Modelled from the spec: the polyfill module data catalog is a static JSON
asset (`polyfill-module-data.json`) generated offline by
`create-polyfill-module-data.js`; the asset itself is not part of the sources
here.  Per the spec there is one entry per polyfilled feature,
`{name, modules, corejs?}`; names seen in the spec and repository tests
include `String.prototype.repeat` (module `es.string.repeat`),
`Array.prototype.forEach`, `Object.entries`, `Array.prototype.findLast`
(including module `esnext.array.find-last`), `String.raw`, and the two
manually added non-core-js entries `focus-visible` and
`Error.prototype.cause`.  No bare-global class entry (such as `Promise` or
`Map`) is in the catalog. -/
def polyfillModuleData : List PolyfillModuleDataEntry :=
  [⟨str "focus-visible", [str "focus-visible"], false⟩,
   ⟨str "Error.prototype.cause", [str "es.error.cause"], false⟩,
   ⟨str "String.prototype.repeat", [str "es.string.repeat"], true⟩,
   ⟨str "String.raw", [str "es.string.raw"], true⟩,
   ⟨str "Array.prototype.forEach", [str "es.array.for-each"], true⟩,
   ⟨str "Array.prototype.findLast",
     [str "es.array.find-last", str "esnext.array.find-last"], true⟩,
   ⟨str "Object.entries", [str "es.object.entries"], true⟩]

/-- `getPolyfillModuleData()`. -/
def getPolyfillModuleData : List PolyfillModuleDataEntry := polyfillModuleData

/-- `getCoreJsPolyfillData()`: core-js entries as `{name, coreJs3Module:
modules[0]}`. -/
def getCoreJsPolyfillData : List (List Char × List Char) :=
  (getPolyfillModuleData.filter (·.corejs)).map fun d =>
    (d.name, d.modules.headD [])

/-- `getPolyfillPatterns()`: split each name on `.`; with more than one part
the object is all but the last part joined by `.` and the property is the
last part, else the whole name is a global property. -/
def getPolyfillPatterns : List Pattern :=
  getCoreJsPolyfillData.map fun nm =>
    let parts := nm.1.splitOn '.'
    let object := if parts.length > 1 then
        some (List.intercalate (str ".") parts.dropLast) else none
    let property := parts.getLastD []
    ⟨nm.1, buildPolyfillExpression object property nm.2, none⟩

/-- `content.split(pattern).length - 1` for a string `pattern`: the number of
non-overlapping occurrences of `pat`, scanning left to right. -/
def countSubstrGo (pat : List Char) : Nat → List Char → Nat
  | 0, _ => 0
  | _, [] => 0
  | fuel + 1, c :: rest =>
      if pat ≠ [] ∧ pat.isPrefixOf (c :: rest) then
        1 + countSubstrGo pat fuel ((c :: rest).drop pat.length)
      else countSubstrGo pat fuel rest

/-- `content.split(pattern).length - 1` for a (non-empty) string `pattern`. -/
def countSubstr (pat s : List Char) : Nat :=
  countSubstrGo pat (s.length + 1) s

/-- `(content.match(re) ?? []).length` for a global regex: the number of
non-overlapping leftmost matches.  (The transform counting regexes never
match the empty string; `max len 1` only guards totality.) -/
def countReFrom (r : RE) (code : List Char) : Nat → Nat → Nat
  | 0, _ => 0
  | fuel + 1, i =>
      if i < code.length then
        match reMatchAt r (code.drop i) with
        | some rest =>
            1 + countReFrom r code fuel
              (i + max ((code.drop i).length - rest.length) 1)
        | none => countReFrom r code fuel (i + 1)
      else 0

/-- Number of matches of a (never-empty-matching) regex in `code`. -/
def countRe (r : RE) (code : List Char) : Nat :=
  countReFrom r code (code.length + 1) 0

/-- `regeneratorRuntime\(?\)?\.a?wrap` (the per-`await` counting regex). -/
def reRegeneratorCall : RE :=
  REseq [RElit (str "regeneratorRuntime"), RE.opt (RE.chr '('),
    RE.opt (RE.chr ')'), RE.chr '.', RE.opt (RE.chr 'a'), RElit (str "wrap")]

/-- `\.apply\(void 0,\s?_toConsumableArray` (the per-spread counting regex). -/
def reSpreadCall : RE :=
  REseq [RE.chr '.', RElit (str "apply"), RE.chr '(', RElit (str "void 0,"),
    RE.opt (RE.cls jsSpace), RElit (str "_toConsumableArray")]

/-- `getTransformPatterns()`: the three compiler-transform signatures with
their byte-cost heuristics (`'_classCallCheck()'.length = 17`,
`'_toConsumableArray()'.length = 20`). -/
def getTransformPatterns : List Pattern :=
  [⟨str "@babel/plugin-transform-classes",
    RElit (str "Cannot call a class as a function"),
    some fun content =>
      1000 + ((countSubstr (str "_classCallCheck") content : Int) - 1) * 17⟩,
   ⟨str "@babel/plugin-transform-regenerator",
    RE.alt (RElit (str "Generator is already running"))
      (RElit (str "regeneratorRuntime")),
    some fun content => (countRe reRegeneratorCall content : Int) * 80⟩,
   ⟨str "@babel/plugin-transform-spread",
    RElit (str "Invalid attempt to spread non-iterable instance"),
    some fun content => 1169 + (countRe reSpreadCall content : Int) * 20⟩]

/-- The pattern list the audit hands to the `CodePatternMatcher`:
`[...getPolyfillPatterns(), ...getTransformPatterns()]`. -/
def catalogPatterns : List Pattern := getPolyfillPatterns ++ getTransformPatterns

end LegacyJS

namespace LegacyJS

/-- One match result `{name, line, column}`. -/
structure PatternMatchResult where
  name : List Char
  line : Nat
  column : Nat
deriving DecidableEq, Repr

/-- Length matched by the newline capture group `(^\r\n|\r|\n)` at a
position (`atStart` is true only at input index 0, where the unanchored-flag
`^` can hold): `^\r\n` (two chars, only at the start), else `\r`, else
`\n`. -/
def newlineLen (atStart : Bool) : List Char → Option Nat
  | [] => none
  | [c1] => if c1 = '\r' then some 1 else if c1 = '\n' then some 1 else none
  | c1 :: c2 :: _ =>
      if c1 = '\r' then
        if c2 = '\n' then some (if atStart then 2 else 1) else some 1
      else if c1 = '\n' then some 1 else none

/-- The first pattern (in list order, as in the `|`-joined combined regex)
whose expression matches at the start of `s`; returns its index and the
number of characters its match consumes. -/
def firstPat : List Pattern → List Char → Nat → Option (Nat × Nat)
  | [], _, _ => none
  | p :: rest, s, idx =>
      match reMatchAt p.expression s with
      | some leftover => some (idx, s.length - leftover.length)
      | none => firstPat rest s (idx + 1)

/-- One `exec` event of the combined regex `(^\r\n|\r|\n)|(p1)|...`. -/
inductive ScanEvent : Type
  | newline : Nat → Nat → ScanEvent          -- index, length
  | hit : Nat → Nat → Nat → ScanEvent        -- index, pattern index, length
deriving DecidableEq, Repr

/-- The combined regex tried at absolute position `i` of `code`: the newline
group is the first alternative, then the patterns in order. -/
def eventAt (patterns : List Pattern) (code : List Char) (i : Nat) :
    Option ScanEvent :=
  match newlineLen (i = 0) (code.drop i) with
  | some len => some (ScanEvent.newline i len)
  | none =>
      match firstPat patterns (code.drop i) 0 with
      | some pl => some (ScanEvent.hit i pl.1 pl.2)
      | none => none

/-- Index just past an event (where `lastIndex` is left): event index plus
match length.  (`max … 1` only guards totality of the loop; no generated
pattern matches the empty string.) -/
def ScanEvent.next : ScanEvent → Nat
  | ScanEvent.newline i len => i + max len 1
  | ScanEvent.hit i _ len => i + max len 1

/-- The `while ((result = this.re.exec(code)) !== null)` loop of
`CodePatternMatcher.match`, with its four pieces of loop state: the implicit
regex cursor `i` (`lastIndex`), `line`, `lineBeginsAtIndex` and the `seen`
set (pattern indices, since the source dedups on pattern object identity).
On a newline-group event the line counter is incremented,
`lineBeginsAtIndex` becomes `result.index + 1`, and nothing is emitted; on a
pattern event the pattern is looked up by its capture-group position, skipped
if seen, else recorded as `{name, line, column: result.index -
lineBeginsAtIndex}`.  `fuel` bounds loop iterations; every event advances the
cursor, so `code.length + 1` is always enough. -/
def cpmGo (patterns : List Pattern) (code : List Char) :
    Nat → Nat → Nat → Nat → List Nat → List PatternMatchResult
  | 0, _, _, _, _ => []
  | fuel + 1, i, line, lbi, seen =>
      if i < code.length then
        match eventAt patterns code i with
        | some (ScanEvent.newline idx len) =>
            cpmGo patterns code fuel (ScanEvent.newline idx len).next
              (line + 1) (idx + 1) seen
        | some (ScanEvent.hit idx pidx len) =>
            if pidx ∈ seen then
              cpmGo patterns code fuel (ScanEvent.hit idx pidx len).next
                line lbi seen
            else
              ⟨((patterns.get? pidx).map Pattern.name).getD [], line, idx - lbi⟩ ::
                cpmGo patterns code fuel (ScanEvent.hit idx pidx len).next
                  line lbi (seen ++ [pidx])
        | none => cpmGo patterns code fuel (i + 1) line lbi seen
      else []

/-- `CodePatternMatcher.match(code)`: reset the cursor and scan from the
start with fresh per-invocation state. -/
def cpmMatch (patterns : List Pattern) (code : List Char) :
    List PatternMatchResult :=
  cpmGo patterns code (code.length + 1) 0 0 0 []

/-- The bare event trace of the same scan (no line/column/dedup
bookkeeping): which `exec` events fire, in order. -/
def scanGo (patterns : List Pattern) (code : List Char) :
    Nat → Nat → List ScanEvent
  | 0, _ => []
  | fuel + 1, i =>
      if i < code.length then
        match eventAt patterns code i with
        | some ev => ev :: scanGo patterns code fuel ev.next
        | none => scanGo patterns code fuel (i + 1)
      else []

/-- All `exec` events of one scan of `code`. -/
def scanEvents (patterns : List Pattern) (code : List Char) : List ScanEvent :=
  scanGo patterns code (code.length + 1) 0

/-- Number of newline-group events in a trace prefix. -/
def traceNewlineCount (pre : List ScanEvent) : Nat :=
  pre.countP fun e => match e with
    | ScanEvent.newline _ _ => true
    | _ => false

/-- The line-start offset after a trace prefix: one past the index of the
last newline-group event (0 with no newline yet). -/
def traceLineStart (pre : List ScanEvent) : Nat :=
  ((pre.filterMap fun e => match e with
    | ScanEvent.newline idx _ => some idx
    | _ => none).getLast?).elim 0 (· + 1)

/-- Pattern indices of the hit events of a trace prefix. -/
def traceHitPidxs (pre : List ScanEvent) : List Nat :=
  pre.filterMap fun e => match e with
    | ScanEvent.hit _ pidx _ => some pidx
    | _ => none

/-- Reference reading of a scan trace: each hit event whose pattern has no
earlier hit yields one match, with line = number of newline events before
it, and column = hit index minus the line-start offset of the trace so
far. -/
def traceGo (patterns : List Pattern) :
    List ScanEvent → List ScanEvent → List PatternMatchResult
  | _, [] => []
  | pre, ScanEvent.newline idx len :: rest =>
      traceGo patterns (pre ++ [ScanEvent.newline idx len]) rest
  | pre, ScanEvent.hit idx pidx len :: rest =>
      if pidx ∈ traceHitPidxs pre then
        traceGo patterns (pre ++ [ScanEvent.hit idx pidx len]) rest
      else
        ⟨((patterns.get? pidx).map Pattern.name).getD [],
          traceNewlineCount pre, idx - traceLineStart pre⟩ ::
          traceGo patterns (pre ++ [ScanEvent.hit idx pidx len]) rest

/-- Matches read off a scan trace. -/
def traceMatches (patterns : List Pattern) (trace : List ScanEvent) :
    List PatternMatchResult :=
  traceGo patterns [] trace

/-- The smallest index of `code` at which the pattern matches (the position
of the first textual occurrence of the signature). -/
def firstOccIdx (r : RE) (code : List Char) : Option Nat :=
  (List.range (code.length + 1)).find? fun i =>
    (reMatchAt r (code.drop i)).isSome

end LegacyJS

namespace LegacyJS

/-- A script artifact `{scriptId, url, content}`; `content` is `none` when
missing (JavaScript `undefined`), and both a missing and an empty content
are falsy for the `if (!script.content) continue` guard. -/
structure Script where
  scriptId : Nat
  url : List Char
  content : Option (List Char)
deriving DecidableEq, Repr

/-- JavaScript truthiness of an optional string. -/
def contentTruthy : Option (List Char) → Bool
  | none => false
  | some [] => false
  | some (_ :: _) => true

/-- One entry of `bundle.map.mappings()`: a generated position together with
the original source path it maps to. -/
structure SourceMapping where
  sourceURL : List Char
  lineNumber : Nat
  columnNumber : Nat
deriving DecidableEq, Repr

/-- A bundle `{script, rawMap: {sources}, map}` associated to a script. -/
structure Bundle where
  scriptId : Nat
  rawMapSources : List (List Char)
  mapMappings : List SourceMapping
deriving DecidableEq, Repr

/-- JavaScript `String.prototype.includes`: `pat` occurs somewhere in `s`. -/
def containsSub (pat : List Char) : List Char → Bool
  | [] => pat.isEmpty
  | c :: rest => pat.isPrefixOf (c :: rest) || containsSub pat rest

/-- Whether a raw-source-map path points at one of the entry's modules:
`source.endsWith('/' + module + '.js') ||
 source.includes('node_modules/' + module + '/')`. -/
def sourceHitsModule (modules : List (List Char)) (source : List Char) : Bool :=
  modules.any fun m =>
    (('/' :: m ++ str ".js").isSuffixOf source) ||
    containsSub (str "node_modules/" ++ m ++ ['/']) source

/-- The per-bundle correlation loop of `detectAcrossScripts`: for every
catalog entry whose name is not already among the ms, look for a raw
source-map path hitting one of its modules; if found, push a match located at
the first mapping for that path, or at `(0, 0)` without one.  `ms.some`
is evaluated against the current (growing) match list, and `ms.push`
appends. -/
def correlate (bundle : Bundle) :
    List PolyfillModuleDataEntry → List PatternMatchResult →
    List PatternMatchResult
  | [], ms => ms
  | e :: rest, ms =>
      if ms.any fun m => m.name = e.name then
        correlate bundle rest ms
      else
        match bundle.rawMapSources.find? (sourceHitsModule e.modules) with
        | none => correlate bundle rest ms
        | some source =>
            match bundle.mapMappings.find? fun mp => mp.sourceURL = source with
            | some mapping =>
                correlate bundle rest
                  (ms ++ [⟨e.name, mapping.lineNumber, mapping.columnNumber⟩])
            | none => correlate bundle rest (ms ++ [⟨e.name, 0, 0⟩])

/-- The per-script body of `detectAcrossScripts` (for a script with truthy
content): pattern matching, then source-map correlation when the script
belongs to a bundle. -/
def scriptMatches (data : List PolyfillModuleDataEntry)
    (patterns : List Pattern) (bundles : List Bundle) (script : Script)
    (content : List Char) : List PatternMatchResult :=
  let ms := cpmMatch patterns content
  match bundles.find? fun b => b.scriptId = script.scriptId with
  | some bundle => correlate bundle data ms
  | none => ms

/-- `LegacyJavascript.detectAcrossScripts(matcher, scripts, bundles)`: a map
(in insertion order) from script to its combined match list; scripts with
falsy content are skipped, and a script is recorded only when its combined
match list is non-empty. -/
def detectAcrossScripts (data : List PolyfillModuleDataEntry)
    (patterns : List Pattern) : List Script → List Bundle →
    List (Script × List PatternMatchResult)
  | [], _ => []
  | script :: rest, bundles =>
      match script.content with
      | none => detectAcrossScripts data patterns rest bundles
      | some c =>
          if contentTruthy script.content then
            if (scriptMatches data patterns bundles script c).isEmpty then
              detectAcrossScripts data patterns rest bundles
            else (script, scriptMatches data patterns bundles script c) ::
              detectAcrossScripts data patterns rest bundles
          else detectAcrossScripts data patterns rest bundles

/-- The polyfill dependency graph `{moduleSizes, dependencies, maxSize}`.
Modelled from the spec: the graph is a static JSON asset
(`polyfill-graph-data.json`) generated offline and not part of the sources
here, so it is kept abstract: per-module byte sizes indexed by module index,
a map from polyfill name to the module indices it pulls in, and the hard cap
`maxSize` on the polyfill estimate. -/
structure DependencyGraph where
  moduleSizes : List Int
  dependencies : List (List Char × List Nat)
  maxSize : Int

/-- `graph.dependencies[name]` (an association-map lookup). -/
def depsLookup (g : DependencyGraph) (name : List Char) : Option (List Nat) :=
  (g.dependencies.find? fun d => d.1 = name).map (·.2)

/-- `graph.moduleSizes[i]` (0 outside the array, a totality default). -/
def moduleSizeAt (g : DependencyGraph) (i : Nat) : Int :=
  g.moduleSizes.getD i 0

/-- Whether a match is a transform signal (`name.startsWith('@')`). -/
def isTransformName : List Char → Bool
  | '@' :: _ => true
  | _ => false

/-- `modulesSeen.add(module)`: insertion-ordered set insert. -/
def addModule (seen : List Nat) (m : Nat) : List Nat :=
  if m ∈ seen then seen else seen ++ [m]

/-- The deduplicated, insertion-ordered union of the dependency-graph module
indices of the polyfill ms (the `modulesSeen` set). -/
def modulesSeenOf (g : DependencyGraph) (ms : List PatternMatchResult) :
    List Nat :=
  (ms.filter fun m => !(isTransformName m.name)).foldl
    (fun seen r =>
      match depsLookup g r.name with
      | none => seen
      | some modules => modules.foldl addModule seen)
    []

/-- The pre-clamp polyfill byte estimate: `moduleSizes` summed over
`modulesSeen`. -/
def polyfillBytesPreClamp (g : DependencyGraph)
    (ms : List PatternMatchResult) : Int :=
  (modulesSeenOf g ms).foldl (fun acc i => acc + moduleSizeAt g i) 0

/-- The transform byte estimate: for every transform match whose name is a
transform pattern with an `estimateBytes` heuristic, that heuristic applied
to the (truthy) script content, summed. -/
def transformBytes (script : Script) (ms : List PatternMatchResult) : Int :=
  (ms.filter fun m => isTransformName m.name).foldl
    (fun acc r =>
      match getTransformPatterns.find? fun p => p.name = r.name with
      | none => acc
      | some p =>
          match p.estimateBytes, script.content with
          | some est, some content =>
              if contentTruthy script.content then acc + est content else acc
          | _, _ => acc)
    0

/-- `LegacyJavascript.estimateWastedBytes(script, ms)`: the polyfill
portion clamped to `maxSize`, plus the transform portion. -/
def estimateWastedBytes (g : DependencyGraph) (script : Script)
    (ms : List PatternMatchResult) : Int :=
  min (polyfillBytesPreClamp g ms) g.maxSize + transformBytes script ms

end LegacyJS

namespace LegacyJS

set_option maxRecDepth 10000

/-- The signal names of a match list. -/
def namesOf (ms : List PatternMatchResult) : List (List Char) :=
  ms.map PatternMatchResult.name

/-- The union, as a finite set, of the dependency-graph module indices of
the polyfill matches. -/
def polyfillUnionFinset (g : DependencyGraph)
    (ms : List PatternMatchResult) : Finset Nat :=
  (ms.filter fun m => !(isTransformName m.name)).foldl
    (fun acc m =>
      match depsLookup g m.name with
      | none => acc
      | some modules => acc ∪ modules.toFinset)
    ∅

/-- The line-start offset a trace prefix would record if a newline-group
event stored the index just *past the whole terminator* (index plus matched
length) instead of index plus one — the reading asserted by the
specification sentence under test. -/
def traceLineStartPastEnd (pre : List ScanEvent) : Nat :=
  ((pre.filterMap fun e => match e with
    | ScanEvent.newline idx len => some (idx + len)
    | _ => none).getLast?).elim 0 id

/-- `traceGo` with the past-the-whole-terminator line-start reading. -/
def traceGoPastEnd (patterns : List Pattern) :
    List ScanEvent → List ScanEvent → List PatternMatchResult
  | _, [] => []
  | pre, ScanEvent.newline idx len :: rest =>
      traceGoPastEnd patterns (pre ++ [ScanEvent.newline idx len]) rest
  | pre, ScanEvent.hit idx pidx len :: rest =>
      if pidx ∈ traceHitPidxs pre then
        traceGoPastEnd patterns (pre ++ [ScanEvent.hit idx pidx len]) rest
      else
        ⟨((patterns.get? pidx).map Pattern.name).getD [],
          traceNewlineCount pre, idx - traceLineStartPastEnd pre⟩ ::
          traceGoPastEnd patterns (pre ++ [ScanEvent.hit idx pidx len]) rest

/-- Matches read off a scan trace under the "index just past the
terminator" reading of the line-start bookkeeping. -/
def traceMatchesPastEnd (patterns : List Pattern) (trace : List ScanEvent) :
    List PatternMatchResult :=
  traceGoPastEnd patterns [] trace

/-- Replaying a scan trace with explicit `line` / `lineBeginsAtIndex` /
`seen` state (the bridge between the scanning loop and the prefix-counting
reading of a trace). -/
def applyTrace (patterns : List Pattern) :
    Nat → Nat → List Nat → List ScanEvent → List PatternMatchResult
  | _, _, _, [] => []
  | line, _, seen, ScanEvent.newline idx _ :: rest =>
      applyTrace patterns (line + 1) (idx + 1) seen rest
  | line, lbi, seen, ScanEvent.hit idx pidx _ :: rest =>
      if pidx ∈ seen then applyTrace patterns line lbi seen rest
      else
        ⟨((patterns.get? pidx).map Pattern.name).getD [], line, idx - lbi⟩ ::
          applyTrace patterns line lbi (seen ++ [pidx]) rest

end LegacyJS

namespace LegacyJS

set_option maxRecDepth 40000

/-- Claim C1: with the pattern catalog built from the polyfill module data
(which contains an entry named `String.prototype.repeat`), running
`CodePatternMatcher.match` on the exact input string
`String.prototype.repeat = function() {}` returns exactly one Match, equal
to `{name: 'String.prototype.repeat', line: 0, column: 0}`. -/
theorem claim_C1 :
    cpmMatch catalogPatterns
      (str "String.prototype.repeat = function() \x7b\x7d") =
    [⟨str "String.prototype.repeat", 0, 0⟩] := by decide

/-- Claim C6: running `CodePatternMatcher.match` with the catalog patterns
on each of the five ordinary / non-confusable snippets yields zero matches,
and an assignment to a subclass-named identifier such as `SomePromise = ...`
never matches the pattern built for the bare global `Promise`. -/
theorem claim_C6 :
    cpmMatch catalogPatterns
      (str "var message = \"hello world\"; console.log(message);") = [] ∧
    cpmMatch catalogPatterns
      (str "SomeClass.prototype.someFn = function() \x7b\x7d") = [] ∧
    cpmMatch catalogPatterns
      (str "Object.defineProperty(SomeClass.prototype, \"someFn\", function() \x7b\x7d)") =
      [] ∧
    cpmMatch catalogPatterns (str "SomeGlobal = function() \x7b\x7d") = [] ∧
    cpmMatch catalogPatterns
      (str "var b=typeof Map===\"function\"?new Map():void 0") = [] ∧
    cpmMatch
      [⟨str "Promise",
        buildPolyfillExpression none (str "Promise") (str "es.promise"), none⟩]
      (str "SomePromise = function() \x7b\x7d") = [] := by
  refine ⟨by decide, by decide, by decide, by decide, by decide, by decide⟩

end LegacyJS

namespace LegacyJS

theorem cpmGo_eq_applyTrace (pats : List Pattern) (code : List Char) :
    ∀ fuel i line lbi seen, cpmGo pats code fuel i line lbi seen =
      applyTrace pats line lbi seen (scanGo pats code fuel i) := by
  intro fuel
  induction fuel with
  | zero => intro i line lbi seen; rfl
  | succ f ih =>
    intro i line lbi seen
    simp only [cpmGo, scanGo]
    by_cases h : i < code.length
    · simp only [if_pos h]
      cases hev : eventAt pats code i with
      | none => simp only [applyTrace, ih]
      | some ev =>
        cases ev with
        | newline idx len => simp only [applyTrace, ih]
        | hit idx pidx len =>
          by_cases hseen : pidx ∈ seen
          · simp only [applyTrace, if_pos hseen, ih]
          · simp only [applyTrace, if_neg hseen, ih]
    · simp only [if_neg h, applyTrace]

theorem traceNewlineCount_append_newline (pre : List ScanEvent)
    (idx len : Nat) :
    traceNewlineCount (pre ++ [ScanEvent.newline idx len]) =
      traceNewlineCount pre + 1 := by
  simp [traceNewlineCount, List.countP_append, List.countP_cons,
    List.countP_nil]

theorem traceNewlineCount_append_hit (pre : List ScanEvent)
    (idx pidx len : Nat) :
    traceNewlineCount (pre ++ [ScanEvent.hit idx pidx len]) =
      traceNewlineCount pre := by
  simp [traceNewlineCount, List.countP_append, List.countP_cons,
    List.countP_nil]

theorem traceLineStart_append_newline (pre : List ScanEvent) (idx len : Nat) :
    traceLineStart (pre ++ [ScanEvent.newline idx len]) = idx + 1 := by
  simp [traceLineStart, List.filterMap_append]

theorem traceLineStart_append_hit (pre : List ScanEvent)
    (idx pidx len : Nat) :
    traceLineStart (pre ++ [ScanEvent.hit idx pidx len]) =
      traceLineStart pre := by
  simp [traceLineStart, List.filterMap_append]

theorem traceHitPidxs_append_newline (pre : List ScanEvent) (idx len : Nat) :
    traceHitPidxs (pre ++ [ScanEvent.newline idx len]) = traceHitPidxs pre := by
  simp [traceHitPidxs, List.filterMap_append]

theorem traceHitPidxs_append_hit (pre : List ScanEvent) (idx pidx len : Nat) :
    traceHitPidxs (pre ++ [ScanEvent.hit idx pidx len]) =
      traceHitPidxs pre ++ [pidx] := by
  simp [traceHitPidxs, List.filterMap_append]

theorem applyTrace_seen_congr (pats : List Pattern) :
    ∀ (trace : List ScanEvent) (line lbi : Nat) (s1 s2 : List Nat),
      (∀ x, x ∈ s1 ↔ x ∈ s2) →
      applyTrace pats line lbi s1 trace = applyTrace pats line lbi s2 trace := by
  intro trace
  induction trace with
  | nil => intro line lbi s1 s2 _; rfl
  | cons e rest ih =>
    intro line lbi s1 s2 hmem
    cases e with
    | newline idx len => simp only [applyTrace]; exact ih _ _ _ _ hmem
    | hit idx pidx len =>
      simp only [applyTrace]
      by_cases h1 : pidx ∈ s1
      · rw [if_pos h1, if_pos ((hmem pidx).1 h1)]
        exact ih _ _ _ _ hmem
      · rw [if_neg h1, if_neg (fun h2 => h1 ((hmem pidx).2 h2))]
        refine congrArg _ (ih _ _ _ _ fun x => ?_)
        simp only [List.mem_append, List.mem_singleton, hmem x]

theorem applyTrace_eq_traceGo (pats : List Pattern) :
    ∀ (trace pre : List ScanEvent),
      applyTrace pats (traceNewlineCount pre) (traceLineStart pre)
        (traceHitPidxs pre) trace = traceGo pats pre trace := by
  intro trace
  induction trace with
  | nil => intro pre; rfl
  | cons e rest ih =>
    intro pre
    cases e with
    | newline idx len =>
      simp only [applyTrace, traceGo]
      rw [← traceNewlineCount_append_newline pre idx len,
        ← traceLineStart_append_newline pre idx len,
        ← traceHitPidxs_append_newline pre idx len]
      · exact ih (pre ++ [ScanEvent.newline idx len])
    | hit idx pidx len =>
      simp only [applyTrace, traceGo]
      by_cases hseen : pidx ∈ traceHitPidxs pre
      · simp only [if_pos hseen]
        rw [applyTrace_seen_congr pats rest _ _ (traceHitPidxs pre)
          (traceHitPidxs (pre ++ [ScanEvent.hit idx pidx len]))
          (by intro x
              rw [traceHitPidxs_append_hit pre idx pidx len]
              simp only [List.mem_append, List.mem_singleton]
              constructor
              · exact fun h => Or.inl h
              · rintro (h | rfl)
                · exact h
                · exact hseen)]
        rw [← traceNewlineCount_append_hit pre idx pidx len,
          ← traceLineStart_append_hit pre idx pidx len]
        exact ih (pre ++ [ScanEvent.hit idx pidx len])
      · simp only [if_neg hseen]
        rw [← traceNewlineCount_append_hit pre idx pidx len,
          ← traceLineStart_append_hit pre idx pidx len,
          ← traceHitPidxs_append_hit pre idx pidx len]
        exact congrArg _ (ih (pre ++ [ScanEvent.hit idx pidx len]))

/-- The scanning loop computes exactly the matches that the prefix-counting
reading of its event trace prescribes: newline-group events emit nothing and
only move the line bookkeeping; each first-per-pattern hit event emits a
match whose line is the number of newline events scanned before it and whose
column is its index minus the recorded line start (one past the *first
character* of the last scanned terminator). -/
theorem cpmMatch_eq_traceMatches (pats : List Pattern) (code : List Char) :
    cpmMatch pats code = traceMatches pats (scanEvents pats code) := by
  rw [cpmMatch, scanEvents, cpmGo_eq_applyTrace, traceMatches]
  exact applyTrace_eq_traceGo pats (scanGo pats code (code.length + 1) 0) []

end LegacyJS

namespace LegacyJS

set_option maxRecDepth 40000

/-- Claim C7, counterexample.  The claim asserts that a line-terminator
match records *the index just past the terminator* as the line start, and
that an emitted Match is located at the first textual occurrence of the
signature.  Both parts fail on the code:
(a) on `"\r\nString.prototype.repeat =x"` the `^\r\n` alternative matches
the two-character terminator at index 0 but the loop records
`result.index + 1 = 1`, so the match is reported at column 1, while the
claimed bookkeeping (line start 2, just past the terminator) would report
column 0;
(b) on a file where an es-shims match for `Object.entries` spans the first
textual occurrence of the `String.prototype.repeat` signature (at index 18),
the scan resumes past that span and reports the later occurrence at
column 59, not the first textual occurrence. -/
theorem claim_C7_cex :
    (cpmMatch catalogPatterns (str "\r\nString.prototype.repeat =x") =
       [⟨str "String.prototype.repeat", 1, 1⟩] ∧
     traceMatchesPastEnd catalogPatterns
       (scanEvents catalogPatterns (str "\r\nString.prototype.repeat =x")) =
       [⟨str "String.prototype.repeat", 1, 0⟩]) ∧
    (cpmMatch catalogPatterns
       (str "(Object,\x7bentries:;String.prototype.repeat =1\x7d,\x7bentries:2\x7d);String.prototype.repeat =2") =
       [⟨str "Object.entries", 0, 0⟩, ⟨str "String.prototype.repeat", 0, 59⟩] ∧
     firstOccIdx
       (buildPolyfillExpression (some (str "String.prototype"))
         (str "repeat") (str "es.string.repeat"))
       (str "(Object,\x7bentries:;String.prototype.repeat =1\x7d,\x7bentries:2\x7d);String.prototype.repeat =2") =
       some 18) := by
  refine ⟨⟨by decide, by decide⟩, by decide, by decide⟩

/-- Claim C7, amended: during a single `CodePatternMatcher.match` scan,
every match of the line-terminator capture group increments the line counter
by one and records the index one past the *first character* of the
terminator as the current line's start offset (for the one-character
terminators `\r` and `\n` this is just past the terminator) while emitting
no Match; consequently, for every emitted Match, the reported line equals
the number of line-terminator events scanned before the first occurrence of
the signature that the scan reaches (the first occurrence at or after the
scan cursor), and the reported column equals that occurrence's start index
minus the current line's start offset. -/
theorem claim_C7 (pats : List Pattern) (code : List Char) :
    cpmMatch pats code = traceMatches pats (scanEvents pats code) :=
  cpmMatch_eq_traceMatches pats code

end LegacyJS

namespace LegacyJS

theorem nameOf_inj (pats : List Pattern)
    (h : (pats.map Pattern.name).Nodup) {p q : Nat}
    (hp : p < pats.length) (hq : q < pats.length) (hne : p ≠ q) :
    ((pats.get? p).map Pattern.name).getD [] ≠
    ((pats.get? q).map Pattern.name).getD [] := by
  intro heq
  have hp' : p < (pats.map Pattern.name).length := by simpa using hp
  have hq' : q < (pats.map Pattern.name).length := by simpa using hq
  have h1 : (pats.map Pattern.name)[p] = (pats.map Pattern.name)[q] := by
    simpa [List.get?_eq_getElem?, List.getElem?_eq_getElem, hp, hq] using heq
  exact hne (h.getElem_inj_iff.mp h1)

theorem firstPat_bounds :
    ∀ (ps : List Pattern) (s : List Char) (idx : Nat) (j len : Nat),
      firstPat ps s idx = some (j, len) → idx ≤ j ∧ j < idx + ps.length := by
  intro ps
  induction ps with
  | nil => intro s idx j len h; exact absurd h (by simp [firstPat])
  | cons p rest ih =>
    intro s idx j len h
    rw [firstPat] at h
    cases hm : reMatchAt p.expression s with
    | some leftover =>
      rw [hm] at h
      injection h with h'
      obtain ⟨rfl, -⟩ := Prod.mk.injEq .. ▸ Prod.ext_iff.mp h'
      simp
    | none =>
      rw [hm] at h
      have := ih s (idx + 1) j len h
      constructor
      · omega
      · simp only [List.length_cons]; omega

theorem scanGo_hits_lt (pats : List Pattern) (code : List Char) :
    ∀ fuel i idx p l, ScanEvent.hit idx p l ∈ scanGo pats code fuel i →
      p < pats.length := by
  intro fuel
  induction fuel with
  | zero => intro i idx p l h; exact absurd h (by simp [scanGo])
  | succ f ih =>
    intro i idx p l h
    rw [scanGo] at h
    by_cases hlt : i < code.length
    · rw [if_pos hlt] at h
      cases hev : eventAt pats code i with
      | none =>
        rw [hev] at h
        exact ih _ _ _ _ h
      | some ev =>
        rw [hev] at h
        rcases List.mem_cons.mp h with heq | hmem
        · subst heq
          rw [eventAt] at hev
          cases hnl : newlineLen (i = 0) (code.drop i) with
          | some len => rw [hnl] at hev; exact absurd hev (by simp)
          | none =>
            rw [hnl] at hev
            cases hfp : firstPat pats (code.drop i) 0 with
            | none => rw [hfp] at hev; exact absurd hev (by simp)
            | some pl =>
              rw [hfp] at hev
              injection hev with hev'
              have hb := firstPat_bounds pats (code.drop i) 0 pl.1 pl.2 (by
                simpa using hfp)
              have : p = pl.1 := by
                have := congrArg (fun e => match e with
                  | ScanEvent.hit _ q _ => q
                  | _ => 0) hev'
                simpa using this.symm
              omega
        · exact ih _ _ _ _ hmem
    · rw [if_neg hlt] at h
      exact absurd h (by simp)

theorem applyTrace_names (pats : List Pattern)
    (hnodup : (pats.map Pattern.name).Nodup) :
    ∀ (trace : List ScanEvent) (line lbi : Nat) (seen : List Nat),
      (∀ idx p l, ScanEvent.hit idx p l ∈ trace → p < pats.length) →
      (namesOf (applyTrace pats line lbi seen trace)).Nodup ∧
      ∀ m ∈ applyTrace pats line lbi seen trace, ∃ p, p < pats.length ∧
        p ∉ seen ∧ m.name = ((pats.get? p).map Pattern.name).getD [] := by
  intro trace
  induction trace with
  | nil =>
    intro line lbi seen _
    exact ⟨by simp [applyTrace, namesOf], by simp [applyTrace]⟩
  | cons e rest ih =>
    intro line lbi seen htr
    have htr' : ∀ idx p l, ScanEvent.hit idx p l ∈ rest → p < pats.length :=
      fun idx p l h => htr idx p l (List.mem_cons_of_mem _ h)
    cases e with
    | newline idx len =>
      simpa [applyTrace] using ih (line + 1) (idx + 1) seen htr'
    | hit idx pidx len =>
      have hpidx : pidx < pats.length := htr idx pidx len (List.mem_cons_self _ _)
      by_cases hseen : pidx ∈ seen
      · simp only [applyTrace, if_pos hseen]
        exact ih line lbi seen htr'
      · simp only [applyTrace, if_neg hseen]
        obtain ⟨ihnodup, ihspec⟩ := ih line lbi (seen ++ [pidx]) htr'
        constructor
        · simp only [namesOf, List.map_cons, List.nodup_cons]
          refine ⟨?_, ihnodup⟩
          intro hmem
          simp only [namesOf, List.mem_map] at hmem
          obtain ⟨m, hm, hname⟩ := hmem
          obtain ⟨q, hq, hqseen, hqname⟩ := ihspec m hm
          have hqne : q ≠ pidx := by
            intro heq
            subst heq
            exact hqseen (by simp)
          exact nameOf_inj pats hnodup hq hpidx hqne (hqname ▸ hname)
        · intro m hm
          rcases List.mem_cons.mp hm with heq | hmem
          · exact ⟨pidx, hpidx, hseen, by rw [heq]⟩
          · obtain ⟨q, hq, hqseen, hqname⟩ := ihspec m hmem
            refine ⟨q, hq, fun hmem' => hqseen (by simp [hmem']), hqname⟩

/-- The names of the pattern-matcher output carry no duplicates whenever the
pattern list itself has pairwise-distinct names. -/
theorem cpmMatch_names_nodup (pats : List Pattern) (code : List Char)
    (hnodup : (pats.map Pattern.name).Nodup) :
    (namesOf (cpmMatch pats code)).Nodup := by
  rw [cpmMatch, cpmGo_eq_applyTrace]
  exact (applyTrace_names pats hnodup _ 0 0 []
    (fun idx p l h => scanGo_hits_lt pats code _ _ idx p l h)).1

end LegacyJS

namespace LegacyJS

theorem correlate_nodup (bundle : Bundle) :
    ∀ (data : List PolyfillModuleDataEntry) (ms : List PatternMatchResult),
      (namesOf ms).Nodup → (namesOf (correlate bundle data ms)).Nodup := by
  intro data
  induction data with
  | nil => intro ms h; exact h
  | cons e rest ih =>
    intro ms h
    rw [correlate]
    by_cases hany : ms.any fun m => m.name = e.name
    · rw [if_pos hany]; exact ih ms h
    · rw [if_neg hany]
      have hnew : ∀ line col,
          (namesOf (ms ++ [(⟨e.name, line, col⟩ : PatternMatchResult)])).Nodup := by
        intro line col
        simp only [namesOf, List.map_append, List.map_cons, List.map_nil]
        rw [List.nodup_append]
        refine ⟨h, List.nodup_singleton _, ?_⟩
        intro a ha hb
        simp only [List.mem_singleton] at hb
        subst hb
        simp only [namesOf, List.mem_map] at ha
        obtain ⟨m, hm, hname⟩ := ha
        have : (ms.any fun m => m.name = e.name) = true :=
          List.any_eq_true.mpr ⟨m, hm, by simp [hname]⟩
        exact hany this
      split
      · exact ih ms h
      · split
        · exact ih _ (hnew _ _)
        · exact ih _ (hnew _ _)

theorem correlate_extends (bundle : Bundle) :
    ∀ (data : List PolyfillModuleDataEntry) (ms : List PatternMatchResult),
      ∃ extra, correlate bundle data ms = ms ++ extra ∧
        ∀ m ∈ extra, m.name ∉ namesOf ms := by
  intro data
  induction data with
  | nil => intro ms; exact ⟨[], by simp [correlate]⟩
  | cons e rest ih =>
    intro ms
    rw [correlate]
    by_cases hany : ms.any fun m => m.name = e.name
    · rw [if_pos hany]; exact ih ms
    · rw [if_neg hany]
      have hkey : ∀ line col, ∃ extra,
          correlate bundle rest (ms ++ [(⟨e.name, line, col⟩ : PatternMatchResult)]) =
            ms ++ extra ∧ ∀ m ∈ extra, m.name ∉ namesOf ms := by
        intro line col
        obtain ⟨extra', heq, hdisj⟩ := ih (ms ++ [⟨e.name, line, col⟩])
        refine ⟨⟨e.name, line, col⟩ :: extra', by simpa using heq, ?_⟩
        intro m hm
        rcases List.mem_cons.mp hm with rfl | hmem
        · intro hin
          simp only [namesOf, List.mem_map] at hin
          obtain ⟨m', hm', hname⟩ := hin
          exact hany (List.any_eq_true.mpr ⟨m', hm', by simp [hname]⟩)
        · intro hin
          refine hdisj m hmem ?_
          simp only [namesOf, List.map_append] at *
          exact List.mem_append_left _ hin
      split
      · exact ih ms
      · split
        · exact hkey _ _
        · exact hkey _ _

theorem detectAcrossScripts_mem (data : List PolyfillModuleDataEntry)
    (patterns : List Pattern) (bundles : List Bundle) :
    ∀ (scripts : List Script) (sc : Script) (ms : List PatternMatchResult),
      (sc, ms) ∈ detectAcrossScripts data patterns scripts bundles →
      ∃ c, sc.content = some c ∧ contentTruthy (some c) = true ∧
        ms = scriptMatches data patterns bundles sc c ∧ ms ≠ [] := by
  intro scripts
  induction scripts with
  | nil => intro sc ms h; exact absurd h (by simp [detectAcrossScripts])
  | cons s rest ih =>
    intro sc ms h
    rw [detectAcrossScripts] at h
    split at h
    · exact ih sc ms h
    · rename_i c heq
      rw [heq] at h
      by_cases htr : contentTruthy (some c)
      · rw [if_pos htr] at h
        by_cases hemp : (scriptMatches data patterns bundles s c).isEmpty
        · rw [if_pos hemp] at h; exact ih sc ms h
        · rw [if_neg hemp] at h
          rcases List.mem_cons.mp h with heq2 | hmem
          · rw [Prod.mk.injEq] at heq2
            obtain ⟨h1, h2⟩ := heq2
            subst h1; subst h2
            exact ⟨c, heq, htr, rfl, by simpa [List.isEmpty_iff] using hemp⟩
          · exact ih sc ms hmem
      · rw [if_neg htr] at h
        exact ih sc ms h

end LegacyJS

namespace LegacyJS

set_option maxRecDepth 40000

/-- Claim C2, counterexample.  In the file
`(Object,{entries:;Array.prototype.forEach =1},{entries:2});Array.prototype.forEach =2`
the es-shims match for `Object.entries` (starting at index 0) consumes a span
containing the first textual occurrence of the `Array.prototype.forEach`
signature (index 18), so the scan resumes past it and the Match kept for
`Array.prototype.forEach` is located at column 59 — not at the first textual
occurrence of that name's signatures, contradicting the claim. -/
theorem claim_C2_cex :
    detectAcrossScripts polyfillModuleData catalogPatterns
      [⟨0, [],
        some (str "(Object,\x7bentries:;Array.prototype.forEach =1\x7d,\x7bentries:2\x7d);Array.prototype.forEach =2")⟩]
      [] =
      [(⟨0, [],
        some (str "(Object,\x7bentries:;Array.prototype.forEach =1\x7d,\x7bentries:2\x7d);Array.prototype.forEach =2")⟩,
        [⟨str "Object.entries", 0, 0⟩,
         ⟨str "Array.prototype.forEach", 0, 59⟩])] ∧
    firstOccIdx
      (buildPolyfillExpression (some (str "Array.prototype"))
        (str "forEach") (str "es.array.for-each"))
      (str "(Object,\x7bentries:;Array.prototype.forEach =1\x7d,\x7bentries:2\x7d);Array.prototype.forEach =2") =
      some 18 ∧
    (59 : Nat) ≠ 18 := by
  refine ⟨by decide, by decide, by decide⟩

/-- Claim C2, amended: for every input file, the combined match list produced
for that file contains at most one Match per distinct name; the Match kept
for a name is the one at the first occurrence the left-to-right scan reaches
(an occurrence beginning inside an earlier match's consumed span is not
seen); later scan occurrences of an already-seen name are discarded; and
source-map correlation never adds a name already present. -/
theorem claim_C2 (data : List PolyfillModuleDataEntry)
    (scripts : List Script) (bundles : List Bundle) (sc : Script)
    (ms : List PatternMatchResult)
    (h : (sc, ms) ∈ detectAcrossScripts data catalogPatterns scripts bundles) :
    (namesOf ms).Nodup ∧
    ∃ c extra, sc.content = some c ∧
      ms = cpmMatch catalogPatterns c ++ extra ∧
      (∀ m ∈ extra, m.name ∉ namesOf (cpmMatch catalogPatterns c)) ∧
      cpmMatch catalogPatterns c =
        traceMatches catalogPatterns (scanEvents catalogPatterns c) := by
  have hnames : ((catalogPatterns.map Pattern.name)).Nodup := by decide
  obtain ⟨c, hc, htr, hms, hne⟩ :=
    detectAcrossScripts_mem data catalogPatterns bundles scripts sc ms h
  have hcpmnodup : (namesOf (cpmMatch catalogPatterns c)).Nodup :=
    cpmMatch_names_nodup catalogPatterns c hnames
  cases hb : bundles.find? fun b => b.scriptId = sc.scriptId with
  | none =>
    simp only [scriptMatches, hb] at hms
    refine ⟨hms ▸ hcpmnodup, c, [], hc, by simpa using hms, by simp,
      cpmMatch_eq_traceMatches catalogPatterns c⟩
  | some bundle =>
    simp only [scriptMatches, hb] at hms
    obtain ⟨extra, hext, hdisj⟩ :=
      correlate_extends bundle data (cpmMatch catalogPatterns c)
    refine ⟨?_, c, extra, hc, by rw [hms, hext], ?_,
      cpmMatch_eq_traceMatches catalogPatterns c⟩
    · rw [hms]
      exact correlate_nodup bundle data (cpmMatch catalogPatterns c) hcpmnodup
    · intro m hm
      exact hdisj m hm

/-- Witness for the amended claim C2 at a concrete run. -/
theorem claim_C2_witness :
    ((⟨0, [], some (str "String.prototype.repeat =x")⟩ : Script),
      [(⟨str "String.prototype.repeat", 0, 0⟩ : PatternMatchResult)]) ∈
      detectAcrossScripts polyfillModuleData catalogPatterns
        [⟨0, [], some (str "String.prototype.repeat =x")⟩] [] ∧
    ((namesOf [(⟨str "String.prototype.repeat", 0, 0⟩ :
        PatternMatchResult)]).Nodup ∧
      ∃ c extra,
        (⟨0, [], some (str "String.prototype.repeat =x")⟩ : Script).content =
          some c ∧
        [(⟨str "String.prototype.repeat", 0, 0⟩ : PatternMatchResult)] =
          cpmMatch catalogPatterns c ++ extra ∧
        (∀ m ∈ extra, m.name ∉ namesOf (cpmMatch catalogPatterns c)) ∧
        cpmMatch catalogPatterns c =
          traceMatches catalogPatterns (scanEvents catalogPatterns c)) :=
  ⟨by decide,
   claim_C2 polyfillModuleData [⟨0, [], some (str "String.prototype.repeat =x")⟩]
     [] ⟨0, [], some (str "String.prototype.repeat =x")⟩
     [⟨str "String.prototype.repeat", 0, 0⟩] (by decide)⟩

end LegacyJS

namespace LegacyJS

set_option maxRecDepth 40000

theorem detectAcrossScripts_mem_script (data : List PolyfillModuleDataEntry)
    (patterns : List Pattern) (bundles : List Bundle) :
    ∀ (scripts : List Script) (sc : Script) (ms : List PatternMatchResult),
      (sc, ms) ∈ detectAcrossScripts data patterns scripts bundles →
      sc ∈ scripts := by
  intro scripts
  induction scripts with
  | nil => intro sc ms h; exact absurd h (by simp [detectAcrossScripts])
  | cons s rest ih =>
    intro sc ms h
    rw [detectAcrossScripts] at h
    split at h
    · exact List.mem_cons_of_mem _ (ih sc ms h)
    · rename_i c heq
      rw [heq] at h
      by_cases htr : contentTruthy (some c)
      · rw [if_pos htr] at h
        by_cases hemp : (scriptMatches data patterns bundles s c).isEmpty
        · rw [if_pos hemp] at h
          exact List.mem_cons_of_mem _ (ih sc ms h)
        · rw [if_neg hemp] at h
          rcases List.mem_cons.mp h with heq2 | hmem
          · rw [Prod.mk.injEq] at heq2
            exact heq2.1 ▸ List.mem_cons_self _ _
          · exact List.mem_cons_of_mem _ (ih sc ms hmem)
      · rw [if_neg htr] at h
        exact List.mem_cons_of_mem _ (ih sc ms h)

theorem detectAcrossScripts_complete (data : List PolyfillModuleDataEntry)
    (patterns : List Pattern) (bundles : List Bundle) :
    ∀ (scripts : List Script) (sc : Script) (c : List Char),
      sc ∈ scripts → sc.content = some c → contentTruthy (some c) = true →
      scriptMatches data patterns bundles sc c ≠ [] →
      (sc, scriptMatches data patterns bundles sc c) ∈
        detectAcrossScripts data patterns scripts bundles := by
  intro scripts
  induction scripts with
  | nil => intro sc c h; exact absurd h (by simp)
  | cons s rest ih =>
    intro sc c hmem hc htr hne
    rw [detectAcrossScripts]
    rcases List.mem_cons.mp hmem with rfl | hmem'
    · rw [hc]
      dsimp only
      rw [if_pos htr, if_neg (by simpa [List.isEmpty_iff] using hne)]
      exact List.mem_cons_self _ _
    · have hrec := ih sc c hmem' hc htr hne
      cases hsc : s.content with
      | none => exact hrec
      | some c' =>
        dsimp only
        by_cases htr' : contentTruthy s.content
        · rw [hsc] at htr'
          rw [if_pos htr']
          by_cases hemp : (scriptMatches data patterns bundles s c').isEmpty
          · rw [if_pos hemp]; exact hrec
          · rw [if_neg hemp]; exact List.mem_cons_of_mem _ hrec
        · rw [hsc] at htr'
          rw [if_neg htr']
          exact hrec

/-- Claim C10: `detectAcrossScripts` never raises on, and produces no output
entry for, a script whose content is missing or empty; a script appears as a
key of the returned map exactly when its combined
(pattern-match-plus-correlation) match list is non-empty, and every recorded
entry carries that non-empty combined list — an entry with an empty match
list is never produced.  (The model is total, so "never raises" holds by
construction.) -/
theorem claim_C10 (data : List PolyfillModuleDataEntry)
    (patterns : List Pattern) (scripts : List Script) (bundles : List Bundle)
    (sc : Script) :
    (∀ ms, (sc, ms) ∈ detectAcrossScripts data patterns scripts bundles →
      ∃ c, sc.content = some c ∧ contentTruthy (some c) = true ∧
        ms = scriptMatches data patterns bundles sc c ∧ ms ≠ []) ∧
    ((∃ ms, (sc, ms) ∈ detectAcrossScripts data patterns scripts bundles) ↔
      ∃ c, sc ∈ scripts ∧ sc.content = some c ∧
        contentTruthy (some c) = true ∧
        scriptMatches data patterns bundles sc c ≠ []) := by
  constructor
  · intro ms h
    exact detectAcrossScripts_mem data patterns bundles scripts sc ms h
  · constructor
    · rintro ⟨ms, h⟩
      obtain ⟨c, hc, htr, hms, hne⟩ :=
        detectAcrossScripts_mem data patterns bundles scripts sc ms h
      exact ⟨c, detectAcrossScripts_mem_script data patterns bundles scripts
        sc ms h, hc, htr, hms ▸ hne⟩
    · rintro ⟨c, hmem, hc, htr, hne⟩
      exact ⟨scriptMatches data patterns bundles sc c,
        detectAcrossScripts_complete data patterns bundles scripts sc c
          hmem hc htr hne⟩

/-- Witness for claim C10 at a concrete run. -/
theorem claim_C10_witness :
    ((⟨0, [], some (str "String.prototype.repeat =x")⟩ : Script),
      [(⟨str "String.prototype.repeat", 0, 0⟩ : PatternMatchResult)]) ∈
      detectAcrossScripts polyfillModuleData catalogPatterns
        [⟨0, [], some (str "String.prototype.repeat =x")⟩,
         ⟨1, [], some []⟩, ⟨2, [], none⟩] [] ∧
    ∃ c, (⟨0, [], some (str "String.prototype.repeat =x")⟩ : Script).content =
        some c ∧ contentTruthy (some c) = true ∧
      [(⟨str "String.prototype.repeat", 0, 0⟩ : PatternMatchResult)] =
        scriptMatches polyfillModuleData catalogPatterns []
          ⟨0, [], some (str "String.prototype.repeat =x")⟩ c ∧
      [(⟨str "String.prototype.repeat", 0, 0⟩ : PatternMatchResult)] ≠ [] :=
  ⟨by decide,
   (claim_C10 polyfillModuleData catalogPatterns
     [⟨0, [], some (str "String.prototype.repeat =x")⟩,
      ⟨1, [], some []⟩, ⟨2, [], none⟩] []
     ⟨0, [], some (str "String.prototype.repeat =x")⟩).1
     [⟨str "String.prototype.repeat", 0, 0⟩] (by decide)⟩

end LegacyJS

namespace LegacyJS

set_option maxRecDepth 40000

theorem correlate_mem_mono (bundle : Bundle)
    (data : List PolyfillModuleDataEntry) (ms : List PatternMatchResult)
    (m : PatternMatchResult) (h : m ∈ ms) : m ∈ correlate bundle data ms := by
  obtain ⟨extra, heq, -⟩ := correlate_extends bundle data ms
  rw [heq]
  exact List.mem_append_left _ h

theorem correlate_adds (bundle : Bundle) (source : List Char) :
    ∀ (data : List PolyfillModuleDataEntry) (ms : List PatternMatchResult)
      (e : PolyfillModuleDataEntry), e ∈ data →
      (data.map PolyfillModuleDataEntry.name).Nodup →
      (∀ m ∈ ms, m.name ≠ e.name) →
      bundle.rawMapSources.find? (sourceHitsModule e.modules) = some source →
      ((bundle.mapMappings.find? fun mp => mp.sourceURL = source).elim
        (⟨e.name, 0, 0⟩ : PatternMatchResult)
        fun mapping => ⟨e.name, mapping.lineNumber, mapping.columnNumber⟩) ∈
        correlate bundle data ms := by
  intro data
  induction data with
  | nil => intro ms e he; exact absurd he (by simp)
  | cons e0 rest ih =>
    intro ms e he hnodup hnew hsrc
    rcases List.mem_cons.mp he with rfl | hmem
    · rw [correlate]
      rw [if_neg (by
        intro hany
        obtain ⟨m, hm, hname⟩ := List.any_eq_true.mp hany
        exact hnew m hm (by simpa using hname))]
      rw [hsrc]
      dsimp only
      split
      · rename_i mapping heq
        rw [heq]
        simp only [Option.elim]
        exact correlate_mem_mono bundle rest
          (ms ++ [⟨e.name, mapping.lineNumber, mapping.columnNumber⟩])
          ⟨e.name, mapping.lineNumber, mapping.columnNumber⟩ (by simp)
      · rename_i heq
        rw [heq]
        simp only [Option.elim]
        exact correlate_mem_mono bundle rest (ms ++ [⟨e.name, 0, 0⟩])
          ⟨e.name, 0, 0⟩ (by simp)
    · have hne0 : e0.name ≠ e.name := by
        intro heq
        have : e0.name ∈ rest.map PolyfillModuleDataEntry.name :=
          heq ▸ List.mem_map_of_mem _ hmem
        exact (List.nodup_cons.mp hnodup).1 this
      have hnodup' : (rest.map PolyfillModuleDataEntry.name).Nodup :=
        (List.nodup_cons.mp hnodup).2
      rw [correlate]
      by_cases hany : ms.any fun m => m.name = e0.name
      · rw [if_pos hany]
        exact ih ms e hmem hnodup' hnew hsrc
      · rw [if_neg hany]
        have hnew' : ∀ line col, ∀ m ∈ ms ++
            [(⟨e0.name, line, col⟩ : PatternMatchResult)], m.name ≠ e.name := by
          intro line col m hm
          rcases List.mem_append.mp hm with h1 | h1
          · exact hnew m h1
          · simp only [List.mem_singleton] at h1
            subst h1
            exact hne0
        split
        · exact ih ms e hmem hnodup' hnew hsrc
        · split
          · exact ih _ e hmem hnodup' (hnew' _ _) hsrc
          · exact ih _ e hmem hnodup' (hnew' _ _) hsrc

/-- Claim C5: for a script that belongs to a bundle with a source map, every
polyfill catalog entry whose name was not found by pattern matching and one
of whose modules is hit by a raw source-map path (ends with `/<module>.js`
or contains `node_modules/<module>/`) yields a Match with that entry's name
in the file's match list; its line and column come from the first source-map
mapping whose `sourceURL` equals the matched (first hitting) source path,
and are `(0, 0)` when no such mapping exists — never a failure. -/
theorem claim_C5 (data : List PolyfillModuleDataEntry)
    (patterns : List Pattern) (bundles : List Bundle) (sc : Script)
    (content : List Char) (bundle : Bundle) (e : PolyfillModuleDataEntry)
    (hb : bundles.find? (fun b => b.scriptId = sc.scriptId) = some bundle)
    (hnodup : (data.map PolyfillModuleDataEntry.name).Nodup)
    (he : e ∈ data)
    (hnotfound : ∀ m ∈ cpmMatch patterns content, m.name ≠ e.name)
    (hhit : ∃ src ∈ bundle.rawMapSources, sourceHitsModule e.modules src = true) :
    ∃ source, bundle.rawMapSources.find? (sourceHitsModule e.modules) =
        some source ∧
      ((bundle.mapMappings.find? fun mp => mp.sourceURL = source).elim
        (⟨e.name, 0, 0⟩ : PatternMatchResult)
        fun mapping => ⟨e.name, mapping.lineNumber, mapping.columnNumber⟩) ∈
        scriptMatches data patterns bundles sc content := by
  have hsome : (bundle.rawMapSources.find? (sourceHitsModule e.modules)).isSome := by
    rw [List.find?_isSome]
    obtain ⟨src, hsrc, hh⟩ := hhit
    exact ⟨src, hsrc, hh⟩
  obtain ⟨source, hsrc⟩ := Option.isSome_iff_exists.mp hsome
  refine ⟨source, hsrc, ?_⟩
  rw [scriptMatches]
  simp only [hb]
  exact correlate_adds bundle source data (cpmMatch patterns content) e he
    hnodup hnotfound hsrc

/-- Witness for claim C5: the spec's own example — a bundle listing
`node_modules/blah/blah/es.string.repeat.js` among its sources, no textual
signature in the compiled output, no mapping for the path. -/
theorem claim_C5_witness :
    (([(⟨0, [str "node_modules/blah/blah/es.string.repeat.js"], []⟩ :
        Bundle)].find? fun b =>
        b.scriptId = (⟨0, str "u", some (str "blah blah")⟩ : Script).scriptId) =
      some ⟨0, [str "node_modules/blah/blah/es.string.repeat.js"], []⟩ ∧
     (polyfillModuleData.map PolyfillModuleDataEntry.name).Nodup ∧
     (⟨str "String.prototype.repeat", [str "es.string.repeat"], true⟩ :
        PolyfillModuleDataEntry) ∈ polyfillModuleData ∧
     (∀ m ∈ cpmMatch catalogPatterns (str "blah blah"),
        m.name ≠ str "String.prototype.repeat")) ∧
    ∃ source,
      ((⟨0, [str "node_modules/blah/blah/es.string.repeat.js"], []⟩ :
        Bundle)).rawMapSources.find?
          (sourceHitsModule [str "es.string.repeat"]) = some source ∧
      ((((⟨0, [str "node_modules/blah/blah/es.string.repeat.js"], []⟩ :
        Bundle)).mapMappings.find? fun mp => mp.sourceURL = source).elim
        (⟨str "String.prototype.repeat", 0, 0⟩ : PatternMatchResult)
        fun mapping =>
          ⟨str "String.prototype.repeat", mapping.lineNumber,
            mapping.columnNumber⟩) ∈
        scriptMatches polyfillModuleData catalogPatterns
          [⟨0, [str "node_modules/blah/blah/es.string.repeat.js"], []⟩]
          ⟨0, str "u", some (str "blah blah")⟩ (str "blah blah") :=
  ⟨⟨by decide, by decide, by decide, by decide⟩,
   claim_C5 polyfillModuleData catalogPatterns
     [⟨0, [str "node_modules/blah/blah/es.string.repeat.js"], []⟩]
     ⟨0, str "u", some (str "blah blah")⟩ (str "blah blah")
     ⟨0, [str "node_modules/blah/blah/es.string.repeat.js"], []⟩
     ⟨str "String.prototype.repeat", [str "es.string.repeat"], true⟩
     (by decide) (by decide) (by decide) (by decide)
     ⟨str "node_modules/blah/blah/es.string.repeat.js", by decide, by decide⟩⟩

end LegacyJS

namespace LegacyJS

set_option maxRecDepth 40000

theorem addModule_nodup (s : List Nat) (m : Nat) (h : s.Nodup) :
    (addModule s m).Nodup := by
  rw [addModule]
  by_cases hm : m ∈ s
  · rw [if_pos hm]; exact h
  · rw [if_neg hm]
    simpa [List.nodup_append] using ⟨h, hm⟩

theorem addModule_toFinset (s : List Nat) (m : Nat) :
    (addModule s m).toFinset = insert m s.toFinset := by
  rw [addModule]
  by_cases hm : m ∈ s
  · rw [if_pos hm]
    exact (Finset.insert_eq_self.mpr (List.mem_toFinset.mpr hm)).symm
  · rw [if_neg hm]
    simp only [List.toFinset_append, List.toFinset_cons, List.toFinset_nil,
      insert_emptyc_eq]
    rw [Finset.union_comm]
    exact Finset.insert_eq m s.toFinset ▸ rfl

theorem foldl_addModule_nodup (mods : List Nat) :
    ∀ s : List Nat, s.Nodup → (mods.foldl addModule s).Nodup := by
  induction mods with
  | nil => intro s h; exact h
  | cons m rest ih =>
    intro s h
    exact ih (addModule s m) (addModule_nodup s m h)

theorem foldl_addModule_toFinset (mods : List Nat) :
    ∀ s : List Nat, (mods.foldl addModule s).toFinset =
      s.toFinset ∪ mods.toFinset := by
  induction mods with
  | nil => intro s; simp
  | cons m rest ih =>
    intro s
    rw [List.foldl_cons, ih (addModule s m), addModule_toFinset]
    ext x
    simp only [Finset.mem_union, Finset.mem_insert, List.mem_toFinset,
      List.mem_cons]
    tauto

theorem modulesSeenOf_nodup (g : DependencyGraph)
    (ms : List PatternMatchResult) : (modulesSeenOf g ms).Nodup := by
  rw [modulesSeenOf]
  generalize (ms.filter fun m => !(isTransformName m.name)) = l
  have : ∀ (l : List PatternMatchResult) (s : List Nat), s.Nodup →
      (l.foldl (fun seen r =>
        match depsLookup g r.name with
        | none => seen
        | some modules => modules.foldl addModule seen) s).Nodup := by
    intro l
    induction l with
    | nil => intro s h; exact h
    | cons r rest ih =>
      intro s h
      rw [List.foldl_cons]
      cases hdep : depsLookup g r.name with
      | none => exact ih s h
      | some modules => exact ih _ (foldl_addModule_nodup modules s h)
  exact this l [] (by simp)

theorem modulesSeenOf_toFinset (g : DependencyGraph)
    (ms : List PatternMatchResult) :
    (modulesSeenOf g ms).toFinset = polyfillUnionFinset g ms := by
  rw [modulesSeenOf, polyfillUnionFinset]
  generalize (ms.filter fun m => !(isTransformName m.name)) = l
  have : ∀ (l : List PatternMatchResult) (s : List Nat) (acc : Finset Nat),
      s.toFinset = acc →
      (l.foldl (fun seen r =>
        match depsLookup g r.name with
        | none => seen
        | some modules => modules.foldl addModule seen) s).toFinset =
      l.foldl (fun acc m =>
        match depsLookup g m.name with
        | none => acc
        | some modules => acc ∪ modules.toFinset) acc := by
    intro l
    induction l with
    | nil => intro s acc h; simpa using h
    | cons r rest ih =>
      intro s acc h
      rw [List.foldl_cons, List.foldl_cons]
      cases hdep : depsLookup g r.name with
      | none => exact ih s acc h
      | some modules =>
        exact ih _ _ (by rw [foldl_addModule_toFinset, h])
  exact this l [] ∅ (by simp)

theorem foldl_add_sizes (f : Nat → Int) (l : List Nat) :
    ∀ z : Int, l.foldl (fun acc i => acc + f i) z = z + (l.map f).sum := by
  induction l with
  | nil => intro z; simp
  | cons i rest ih =>
    intro z
    rw [List.foldl_cons, ih (z + f i)]
    simp [add_assoc]

/-- The pre-clamp polyfill estimate is the sum of `moduleSizes` over the
set-union of module indices: every shared module is counted exactly once. -/
theorem polyfillBytesPreClamp_eq_finset_sum (g : DependencyGraph)
    (ms : List PatternMatchResult) :
    polyfillBytesPreClamp g ms =
      ∑ i ∈ polyfillUnionFinset g ms, moduleSizeAt g i := by
  rw [polyfillBytesPreClamp, foldl_add_sizes, zero_add,
    ← List.sum_toFinset _ (modulesSeenOf_nodup g ms), modulesSeenOf_toFinset]

end LegacyJS

namespace LegacyJS

theorem foldl_addModule_all_new (mods : List Nat) :
    ∀ s : List Nat, mods.Nodup → (∀ x ∈ mods, x ∉ s) →
      mods.foldl addModule s = s ++ mods := by
  induction mods with
  | nil => intro s _ _; simp
  | cons m rest ih =>
    intro s hnodup hnew
    rw [List.foldl_cons]
    have hm : m ∉ s := hnew m (by simp)
    have hstep : addModule s m = s ++ [m] := by rw [addModule, if_neg hm]
    rw [hstep, ih (s ++ [m]) (List.nodup_cons.mp hnodup).2 ?_]
    · simp
    · intro x hx
      simp only [List.mem_append, List.mem_singleton]
      rintro (h1 | rfl)
      · exact hnew x (List.mem_cons_of_mem _ hx) h1
      · exact (List.nodup_cons.mp hnodup).1 hx

theorem modulesSeen_fold_shared (g : DependencyGraph) (hm : Nat) :
    ∀ (pairs : List (PatternMatchResult × List Nat)) (seen : List Nat),
      (∀ p ∈ pairs, depsLookup g p.1.name = some (p.2 ++ [hm])) →
      (∀ p ∈ pairs, (p.2).Nodup) →
      (∀ p ∈ pairs, hm ∉ p.2) →
      List.Pairwise (fun a b => ∀ x ∈ a.2, x ∉ b.2) pairs →
      (∀ p ∈ pairs, ∀ x ∈ p.2, x ∉ seen) →
      hm ∈ seen →
      (pairs.map Prod.fst).foldl (fun seen r =>
        match depsLookup g r.name with
        | none => seen
        | some modules => modules.foldl addModule seen) seen =
      seen ++ (pairs.map fun p => p.2).flatten := by
  intro pairs
  induction pairs with
  | nil => intro seen _ _ _ _ _ _; simp
  | cons p0 rest ih =>
    intro seen hd hnodups hhm hdisj hseen hmem
    rw [List.map_cons, List.foldl_cons, hd p0 (by simp)]
    dsimp only
    have hstep : (p0.2 ++ [hm]).foldl addModule seen = seen ++ p0.2 := by
      rw [List.foldl_append, foldl_addModule_all_new p0.2 seen
        (hnodups p0 (by simp)) (hseen p0 (by simp))]
      simp only [List.foldl_cons, List.foldl_nil]
      rw [addModule, if_pos (List.mem_append_left _ hmem)]
    rw [hstep, ih (seen ++ p0.2)
      (fun p hp => hd p (List.mem_cons_of_mem _ hp))
      (fun p hp => hnodups p (List.mem_cons_of_mem _ hp))
      (fun p hp => hhm p (List.mem_cons_of_mem _ hp))
      (List.pairwise_cons.mp hdisj).2 ?_
      (List.mem_append_left _ hmem)]
    · simp
    · intro p hp x hx
      simp only [List.mem_append]
      rintro (h1 | h1)
      · exact hseen p (List.mem_cons_of_mem _ hp) x hx h1
      · exact (List.pairwise_cons.mp hdisj).1 p hp x h1 hx

theorem polyfillBytesPreClamp_shared (g : DependencyGraph) (hm : Nat)
    (pairs : List (PatternMatchResult × List Nat)) (hne : pairs ≠ [])
    (hpoly : ∀ p ∈ pairs, isTransformName p.1.name = false)
    (hd : ∀ p ∈ pairs, depsLookup g p.1.name = some (p.2 ++ [hm]))
    (hnodups : ∀ p ∈ pairs, (p.2).Nodup)
    (hhm : ∀ p ∈ pairs, hm ∉ p.2)
    (hdisj : List.Pairwise (fun a b => ∀ x ∈ a.2, x ∉ b.2) pairs) :
    polyfillBytesPreClamp g (pairs.map Prod.fst) =
      (pairs.map fun p => ((p.2.map (moduleSizeAt g)).sum)).sum +
        moduleSizeAt g hm := by
  cases pairs with
  | nil => exact absurd rfl hne
  | cons p0 rest =>
    rw [polyfillBytesPreClamp, modulesSeenOf]
    have hfilter : ((p0 :: rest).map Prod.fst).filter
        (fun m => !(isTransformName m.name)) = (p0 :: rest).map Prod.fst := by
      refine List.filter_eq_self.mpr ?_
      intro m hmem
      obtain ⟨p, hp, rfl⟩ := List.mem_map.mp hmem
      simp [hpoly p hp]
    rw [hfilter, List.map_cons, List.foldl_cons, hd p0 (by simp)]
    dsimp only
    have hstep : (p0.2 ++ [hm]).foldl addModule [] = p0.2 ++ [hm] := by
      have := foldl_addModule_all_new (p0.2 ++ [hm]) []
        (by
          rw [List.nodup_append]
          exact ⟨hnodups p0 (by simp), List.nodup_singleton _,
            fun x hx hx' => (List.mem_singleton.mp hx') ▸ hhm p0 (by simp) ∘
              (fun h => h) <| (List.mem_singleton.mp hx') ▸ hx⟩)
        (by simp)
      simpa using this
    rw [hstep, modulesSeen_fold_shared g hm rest (p0.2 ++ [hm])
      (fun p hp => hd p (List.mem_cons_of_mem _ hp))
      (fun p hp => hnodups p (List.mem_cons_of_mem _ hp))
      (fun p hp => hhm p (List.mem_cons_of_mem _ hp))
      (List.pairwise_cons.mp hdisj).2 ?side
      (List.mem_append_right _ (by simp))]
    case side =>
      intro p hp x hx
      simp only [List.mem_append, List.mem_singleton]
      rintro (h1 | rfl)
      · exact (List.pairwise_cons.mp hdisj).1 p hp x h1 hx
      · exact hhm p (List.mem_cons_of_mem _ hp) hx
    rw [foldl_add_sizes, zero_add]
    simp only [List.map_append, List.sum_append, List.map_flatten,
      List.sum_flatten, List.map_cons, List.sum_cons, List.map_map,
      List.map_nil, List.sum_nil, Function.comp_def]
    ring

end LegacyJS

namespace LegacyJS

set_option maxRecDepth 40000

/-- Claim C3: `estimateWastedBytes` computes the polyfill portion as the sum
of `graph.moduleSizes` over the deduplicated union of
`graph.dependencies[name]` across all polyfill matches, so a module shared
by several matched polyfills contributes its size exactly once; and for N
polyfills whose dependency lists are each their own modules plus one shared
helper module, the pre-clamp polyfill estimate is the sum of each polyfill's
own module sizes plus the helper module's size counted once. -/
theorem claim_C3 :
    (∀ (g : DependencyGraph) (ms : List PatternMatchResult),
      polyfillBytesPreClamp g ms =
        ∑ i ∈ polyfillUnionFinset g ms, moduleSizeAt g i) ∧
    (∀ (g : DependencyGraph) (hm : Nat)
      (pairs : List (PatternMatchResult × List Nat)), pairs ≠ [] →
      (∀ p ∈ pairs, isTransformName p.1.name = false) →
      (∀ p ∈ pairs, depsLookup g p.1.name = some (p.2 ++ [hm])) →
      (∀ p ∈ pairs, (p.2).Nodup) →
      (∀ p ∈ pairs, hm ∉ p.2) →
      List.Pairwise (fun a b => ∀ x ∈ a.2, x ∉ b.2) pairs →
      polyfillBytesPreClamp g (pairs.map Prod.fst) =
        (pairs.map fun p => ((p.2.map (moduleSizeAt g)).sum)).sum +
          moduleSizeAt g hm) :=
  ⟨polyfillBytesPreClamp_eq_finset_sum,
   polyfillBytesPreClamp_shared⟩

/-- Witness for claim C3: two polyfills `A` (modules 0, 3) and `B`
(modules 1, 3) sharing helper module 3; the pre-clamp estimate is
5 + 7 + 13 = 25, with the shared 13 counted once. -/
theorem claim_C3_witness :
    (([((⟨str "A", 0, 0⟩ : PatternMatchResult), ([0] : List Nat)),
       (⟨str "B", 0, 0⟩, [1])] ≠ []) ∧
     (∀ p ∈ [((⟨str "A", 0, 0⟩ : PatternMatchResult), ([0] : List Nat)),
       (⟨str "B", 0, 0⟩, [1])],
       depsLookup ⟨[5, 7, 11, 13], [(str "A", [0, 3]), (str "B", [1, 3])],
         1000⟩ p.1.name = some (p.2 ++ [3]))) ∧
    polyfillBytesPreClamp
      ⟨[5, 7, 11, 13], [(str "A", [0, 3]), (str "B", [1, 3])], 1000⟩
      ([((⟨str "A", 0, 0⟩ : PatternMatchResult), ([0] : List Nat)),
        (⟨str "B", 0, 0⟩, [1])].map Prod.fst) =
      ([((⟨str "A", 0, 0⟩ : PatternMatchResult), ([0] : List Nat)),
        (⟨str "B", 0, 0⟩, [1])].map fun p =>
          ((p.2.map (moduleSizeAt
            ⟨[5, 7, 11, 13], [(str "A", [0, 3]), (str "B", [1, 3])],
              1000⟩)).sum)).sum +
        moduleSizeAt
          ⟨[5, 7, 11, 13], [(str "A", [0, 3]), (str "B", [1, 3])], 1000⟩ 3 :=
  ⟨⟨by decide, by decide⟩,
   claim_C3.2 ⟨[5, 7, 11, 13], [(str "A", [0, 3]), (str "B", [1, 3])], 1000⟩ 3
     [(⟨str "A", 0, 0⟩, [0]), (⟨str "B", 0, 0⟩, [1])]
     (by decide) (by decide) (by decide) (by decide) (by decide) (by decide)⟩

/-- Claim C9: a polyfill match whose name has no entry in
`graph.dependencies` is skipped silently by `estimateWastedBytes`: it
contributes nothing to the estimate (and, the model being total, no
exception is possible), while the remaining matches are estimated as
usual. -/
theorem claim_C9 (g : DependencyGraph) (sc : Script)
    (ms1 ms2 : List PatternMatchResult) (m : PatternMatchResult)
    (hdeps : depsLookup g m.name = none)
    (hpoly : isTransformName m.name = false) :
    estimateWastedBytes g sc (ms1 ++ m :: ms2) =
      estimateWastedBytes g sc (ms1 ++ ms2) := by
  rw [estimateWastedBytes, estimateWastedBytes]
  have hpolyfill : polyfillBytesPreClamp g (ms1 ++ m :: ms2) =
      polyfillBytesPreClamp g (ms1 ++ ms2) := by
    rw [polyfillBytesPreClamp, polyfillBytesPreClamp, modulesSeenOf,
      modulesSeenOf, List.filter_append, List.filter_append,
      List.filter_cons]
    rw [if_pos (by simp [hpoly])]
    rw [List.foldl_append, List.foldl_append, List.foldl_cons, hdeps]
  have htransform : transformBytes sc (ms1 ++ m :: ms2) =
      transformBytes sc (ms1 ++ ms2) := by
    rw [transformBytes, transformBytes, List.filter_append,
      List.filter_append, List.filter_cons, if_neg (by simp [hpoly])]
  rw [hpolyfill, htransform]

/-- Witness for claim C9: the match for name `C` has no dependencies entry
and contributes nothing. -/
theorem claim_C9_witness :
    depsLookup ⟨[5, 7], [(str "A", [0, 1])], 100⟩ (str "C") = none ∧
    isTransformName (str "C") = false ∧
    estimateWastedBytes ⟨[5, 7], [(str "A", [0, 1])], 100⟩
      ⟨0, [], some (str "x")⟩
      ([⟨str "A", 0, 0⟩] ++ (⟨str "C", 0, 0⟩ : PatternMatchResult) ::
        [⟨str "A", 0, 1⟩]) =
    estimateWastedBytes ⟨[5, 7], [(str "A", [0, 1])], 100⟩
      ⟨0, [], some (str "x")⟩ ([⟨str "A", 0, 0⟩] ++ [⟨str "A", 0, 1⟩]) :=
  ⟨by decide, by decide,
   claim_C9 ⟨[5, 7], [(str "A", [0, 1])], 100⟩ ⟨0, [], some (str "x")⟩
     [⟨str "A", 0, 0⟩] [⟨str "A", 0, 1⟩] ⟨str "C", 0, 0⟩
     (by decide) (by decide)⟩

end LegacyJS

namespace LegacyJS

set_option maxRecDepth 40000

theorem moduleSizeAt_nonneg (g : DependencyGraph)
    (h1 : ∀ x ∈ g.moduleSizes, (0 : Int) ≤ x) (i : Nat) :
    0 ≤ moduleSizeAt g i := by
  rw [moduleSizeAt, List.getD_eq_getElem?_getD]
  cases hx : g.moduleSizes[i]? with
  | none => simp
  | some x =>
    simp only [Option.getD_some]
    exact h1 x (List.getElem?_mem hx)

theorem polyfillBytesPreClamp_nonneg (g : DependencyGraph)
    (h1 : ∀ x ∈ g.moduleSizes, (0 : Int) ≤ x)
    (ms : List PatternMatchResult) : 0 ≤ polyfillBytesPreClamp g ms := by
  rw [polyfillBytesPreClamp, foldl_add_sizes, zero_add]
  refine List.sum_nonneg ?_
  intro x hx
  obtain ⟨i, -, rfl⟩ := List.mem_map.mp hx
  exact moduleSizeAt_nonneg g h1 i

theorem transformPattern_est_nonneg (p : Pattern)
    (hp : p ∈ getTransformPatterns) (est : List Char → Int)
    (hest : p.estimateBytes = some est) (content : List Char) :
    0 ≤ est content := by
  rw [getTransformPatterns] at hp
  rcases List.mem_cons.mp hp with rfl | hp
  · simp only at hest
    injection hest with hest
    subst hest
    show (0 : Int) ≤ 1000 +
      ((countSubstr (str "_classCallCheck") content : Int) - 1) * 17
    have h0 : (0 : Int) ≤ (countSubstr (str "_classCallCheck") content : Int) :=
      Int.ofNat_nonneg _
    nlinarith
  rcases List.mem_cons.mp hp with rfl | hp
  · simp only at hest
    injection hest with hest
    subst hest
    show (0 : Int) ≤ (countRe reRegeneratorCall content : Int) * 80
    positivity
  rcases List.mem_cons.mp hp with rfl | hp
  · simp only at hest
    injection hest with hest
    subst hest
    show (0 : Int) ≤ 1169 + (countRe reSpreadCall content : Int) * 20
    positivity
  · exact absurd hp (by simp)

theorem transformBytes_nonneg (sc : Script) (ms : List PatternMatchResult) :
    0 ≤ transformBytes sc ms := by
  rw [transformBytes]
  generalize (ms.filter fun m => isTransformName m.name) = l
  have key : ∀ (l : List PatternMatchResult) (acc : Int),
      acc ≤ l.foldl (fun acc r =>
        match getTransformPatterns.find? fun p => p.name = r.name with
        | none => acc
        | some p =>
            match p.estimateBytes, sc.content with
            | some est, some content =>
                if contentTruthy sc.content then acc + est content else acc
            | _, _ => acc) acc := by
    intro l
    induction l with
    | nil => intro acc; exact le_refl acc
    | cons r rest ih =>
      intro acc
      rw [List.foldl_cons]
      refine le_trans ?_ (ih _)
      cases hf : getTransformPatterns.find? fun p => p.name = r.name with
      | none => exact le_refl acc
      | some p =>
        have hmem : p ∈ getTransformPatterns := List.mem_of_find?_eq_some hf
        dsimp only
        cases hest : p.estimateBytes with
        | none => cases sc.content <;> simp
        | some est =>
          cases hc : sc.content with
          | none => simp
          | some content =>
            dsimp only
            by_cases htr : contentTruthy (some content)
            · rw [if_pos htr]
              have := transformPattern_est_nonneg p hmem est hest content
              omega
            · rw [if_neg htr]
  exact key l 0

/-- Claim C4: assuming all `graph.moduleSizes` entries are non-negative (and
the modelled graph's `maxSize` cap, a byte ceiling, is non-negative), the
estimate satisfies `0 ≤ estimate ≤ graph.maxSize + Σ transform estimates`;
in particular the polyfill portion alone is clamped to at most
`graph.maxSize` before transform estimates are added. -/
theorem claim_C4 (g : DependencyGraph) (sc : Script)
    (ms : List PatternMatchResult)
    (h1 : ∀ x ∈ g.moduleSizes, (0 : Int) ≤ x) (h2 : 0 ≤ g.maxSize) :
    0 ≤ estimateWastedBytes g sc ms ∧
    estimateWastedBytes g sc ms ≤ g.maxSize + transformBytes sc ms ∧
    min (polyfillBytesPreClamp g ms) g.maxSize ≤ g.maxSize := by
  have hpre := polyfillBytesPreClamp_nonneg g h1 ms
  have htb := transformBytes_nonneg sc ms
  refine ⟨?_, ?_, min_le_right _ _⟩
  · rw [estimateWastedBytes]
    have : (0 : Int) ≤ min (polyfillBytesPreClamp g ms) g.maxSize :=
      le_min hpre h2
    omega
  · rw [estimateWastedBytes]
    have := min_le_right (polyfillBytesPreClamp g ms) g.maxSize
    omega

/-- Witness for claim C4 at a concrete graph, script and match list. -/
theorem claim_C4_witness :
    (∀ x ∈ ([5, 7] : List Int), (0 : Int) ≤ x) ∧ (0 : Int) ≤ 100 ∧
    (0 ≤ estimateWastedBytes ⟨[5, 7], [(str "A", [0, 1])], 100⟩
        ⟨0, [], some (str "x")⟩ [⟨str "A", 0, 0⟩] ∧
      estimateWastedBytes ⟨[5, 7], [(str "A", [0, 1])], 100⟩
        ⟨0, [], some (str "x")⟩ [⟨str "A", 0, 0⟩] ≤
        (100 : Int) + transformBytes ⟨0, [], some (str "x")⟩
          [⟨str "A", 0, 0⟩] ∧
      min (polyfillBytesPreClamp ⟨[5, 7], [(str "A", [0, 1])], 100⟩
        [⟨str "A", 0, 0⟩]) (100 : Int) ≤ 100) :=
  ⟨by decide, by decide,
   claim_C4 ⟨[5, 7], [(str "A", [0, 1])], 100⟩ ⟨0, [], some (str "x")⟩
     [⟨str "A", 0, 0⟩] (by decide) (by decide)⟩

end LegacyJS

namespace LegacyJS

theorem reMatchAux_notFirst (c : Char)
    (next : RE → List Char → (List Char → Option (List Char)) →
      Option (List Char))
    (hnext : ∀ r, firstCan r c = false → ∀ s k, next r (c :: s) k = k (c :: s)) :
    ∀ (r : RE), firstCan r c = false →
      ∀ (s : List Char) (k : List Char → Option (List Char)),
        reMatchAux next r (c :: s) k = if nullable r then k (c :: s) else none := by
  intro r
  induction r with
  | eps => intro h s k; simp [reMatchAux, nullable]
  | chr d =>
    intro h s k
    have hne : c ≠ d := by
      intro heq
      rw [firstCan] at h
      subst heq
      simp at h
    simp [reMatchAux, nullable, hne]
  | cls p =>
    intro h s k
    rw [firstCan] at h
    simp [reMatchAux, nullable, h]
  | seq a b iha ihb =>
    intro h s k
    rw [firstCan, Bool.or_eq_false_iff] at h
    obtain ⟨ha, hb⟩ := h
    rw [reMatchAux, iha ha]
    cases hna : nullable a with
    | false => simp [nullable, hna]
    | true =>
      rw [if_pos rfl]
      have hfb : firstCan b c = false := by
        rw [hna] at hb
        simpa using hb
      rw [ihb hfb]
      simp [nullable, hna]
  | alt a b iha ihb =>
    intro h s k
    rw [firstCan, Bool.or_eq_false_iff] at h
    obtain ⟨ha, hb⟩ := h
    rw [reMatchAux, iha ha, ihb hb]
    show ((if nullable a = true then k (c :: s) else none).orElse
        fun _ => if nullable b = true then k (c :: s) else none) =
      if nullable (RE.alt a b) = true then k (c :: s) else none
    rw [nullable]
    cases hna : nullable a with
    | true =>
      rw [if_pos rfl, Bool.true_or, if_pos rfl]
      cases hk : k (c :: s) with
      | some v => rfl
      | none => cases hnb : nullable b <;> simp [Option.orElse]
    | false =>
      rw [if_neg (by simp), Bool.false_or]
      cases hnb : nullable b <;> simp [Option.orElse]
  | star r ihr =>
    intro h s k
    rw [firstCan] at h
    rw [reMatchAux, ihr h]
    show ((if nullable r = true then next r (c :: s) k else none).orElse
        fun _ => k (c :: s)) =
      if nullable (RE.star r) = true then k (c :: s) else none
    rw [nullable, if_pos rfl]
    cases hnr : nullable r with
    | true =>
      rw [if_pos rfl, hnext r h s k]
      cases hk : k (c :: s) with
      | some v => rfl
      | none => simp [Option.orElse]
    | false =>
      rw [if_neg (by simp)]
      simp [Option.orElse]

theorem reMatch_notFirst (c : Char) :
    ∀ (n : Nat) (r : RE), firstCan r c = false →
      ∀ (s : List Char) (k : List Char → Option (List Char)),
        reMatch n r (c :: s) k = if nullable r then k (c :: s) else none := by
  intro n
  induction n with
  | zero =>
    intro r h s k
    rw [reMatch]
    exact reMatchAux_notFirst c _ (fun r hr s k => rfl) r h s k
  | succ m ih =>
    intro r h s k
    rw [reMatch]
    refine reMatchAux_notFirst c _ ?_ r h s k
    intro r1 hr1 s1 k1
    have := ih (RE.star r1) (by rwa [firstCan]) s1 k1
    simpa [nullable] using this

end LegacyJS

namespace LegacyJS

theorem newlineLen_none (b : Bool) (c : Char) (s : List Char)
    (hc1 : c ≠ '\r') (hc2 : c ≠ '\n') : newlineLen b (c :: s) = none := by
  cases s with
  | nil => rw [newlineLen, if_neg hc1, if_neg hc2]
  | cons c2 rest => rw [newlineLen, if_neg hc1, if_neg hc2]

theorem firstPat_cons_none (c : Char) :
    ∀ (pats : List Pattern), (∀ p ∈ pats, nullable p.expression = false ∧
      firstCan p.expression c = false) →
    ∀ (s : List Char) (idx : Nat), firstPat pats (c :: s) idx = none := by
  intro pats
  induction pats with
  | nil => intro _ s idx; rfl
  | cons p rest ih =>
    intro hp s idx
    rw [firstPat]
    have h1 := hp p (by simp)
    have hm : reMatchAt p.expression (c :: s) = none := by
      rw [reMatchAt, reMatch_notFirst c _ _ h1.2, h1.1]
      simp
    rw [hm]
    exact ih (fun q hq => hp q (List.mem_cons_of_mem _ hq)) s (idx + 1)

theorem eventAt_cons_zero_none (pats : List Pattern) (c : Char)
    (s : List Char) (hc1 : c ≠ '\r') (hc2 : c ≠ '\n')
    (hp : ∀ p ∈ pats, nullable p.expression = false ∧
      firstCan p.expression c = false) :
    eventAt pats (c :: s) 0 = none := by
  rw [eventAt, List.drop_zero, newlineLen_none _ c s hc1 hc2]
  dsimp only
  rw [firstPat_cons_none c pats hp s 0]

end LegacyJS

namespace LegacyJS

theorem eventAt_idx (pats : List Pattern) (code : List Char) (i : Nat) :
    ∀ ev, eventAt pats code i = some ev →
      (match ev with
       | ScanEvent.newline idx _ => idx
       | ScanEvent.hit idx _ _ => idx) = i := by
  intro ev h
  rw [eventAt] at h
  cases hnl : newlineLen (decide (i = 0)) (code.drop i) with
  | some len =>
    rw [hnl] at h
    injection h with h
    subst h
    rfl
  | none =>
    rw [hnl] at h
    dsimp only at h
    cases hfp : firstPat pats (code.drop i) 0 with
    | some pl =>
      rw [hfp] at h
      injection h with h
      subst h
      rfl
    | none => rw [hfp] at h; exact absurd h (by simp)

theorem eventAt_cons_succ (pats : List Pattern) (c : Char) (s : List Char)
    (i : Nat) (hi : 1 ≤ i) :
    eventAt pats (c :: s) (i + 1) =
      match eventAt pats s i with
      | none => none
      | some (ScanEvent.newline idx len) =>
          some (ScanEvent.newline (idx + 1) len)
      | some (ScanEvent.hit idx p len) =>
          some (ScanEvent.hit (idx + 1) p len) := by
  rw [eventAt, eventAt, List.drop_succ_cons]
  have h1 : (decide (i + 1 = 0)) = false := by simp
  have h2 : (decide (i = 0)) = false := by
    simp only [decide_eq_false_iff_not]
    omega
  rw [h1, h2]
  cases hnl : newlineLen false (s.drop i) with
  | some len => rfl
  | none =>
    dsimp only
    cases hfp : firstPat pats (s.drop i) 0 with
    | some pl => rfl
    | none => rfl

theorem cpmGo_fuel_eq (pats : List Pattern) (code : List Char) :
    ∀ (f1 : Nat), ∀ (f2 i line lbi : Nat) (seen : List Nat),
      code.length - i < f1 → code.length - i < f2 →
      cpmGo pats code f1 i line lbi seen =
        cpmGo pats code f2 i line lbi seen := by
  intro f1
  induction f1 with
  | zero => intro f2 i line lbi seen h1 _; omega
  | succ m ih =>
    intro f2 i line lbi seen h1 h2
    by_cases hlt : i < code.length
    · obtain ⟨m2, rfl⟩ : ∃ m2, f2 = m2 + 1 := by
        cases f2
        · omega
        · exact ⟨_, rfl⟩
      rw [cpmGo, cpmGo, if_pos hlt, if_pos hlt]
      cases hev : eventAt pats code i with
      | none => exact ih m2 (i + 1) line lbi seen (by omega) (by omega)
      | some ev =>
        have hidx := eventAt_idx pats code i ev hev
        cases ev with
        | newline idx len =>
          dsimp only at hidx
          subst hidx
          have hnext : (ScanEvent.newline idx len).next = idx + max len 1 := rfl
          exact ih m2 _ _ _ seen
            (by rw [hnext]; omega) (by rw [hnext]; omega)
        | hit idx p len =>
          dsimp only at hidx
          subst hidx
          have hnext : (ScanEvent.hit idx p len).next = idx + max len 1 := rfl
          dsimp only
          by_cases hseen : p ∈ seen
          · rw [if_pos hseen, if_pos hseen]
            exact ih m2 _ _ _ seen
              (by rw [hnext]; omega) (by rw [hnext]; omega)
          · rw [if_neg hseen, if_neg hseen]
            exact congrArg _ (ih m2 _ _ _ (seen ++ [p])
              (by rw [hnext]; omega) (by rw [hnext]; omega))
    · cases f2 with
      | zero => omega
      | succ m2 => rw [cpmGo, cpmGo, if_neg hlt, if_neg hlt]

theorem cpmGo_shift (pats : List Pattern) (c : Char) (s : List Char) :
    ∀ (fuel : Nat) (i : Nat), 1 ≤ i → ∀ (l1 b1 l2 b2 : Nat) (seen : List Nat),
      namesOf (cpmGo pats (c :: s) fuel (i + 1) l1 b1 seen) =
      namesOf (cpmGo pats s fuel i l2 b2 seen) := by
  intro fuel
  induction fuel with
  | zero => intro i _ l1 b1 l2 b2 seen; rfl
  | succ f ih =>
    intro i hi l1 b1 l2 b2 seen
    rw [cpmGo, cpmGo]
    have hguard : (i + 1 < (c :: s).length) = (i < s.length) := by
      simp only [List.length_cons]
      exact propext (by omega)
    by_cases hlt : i < s.length
    · rw [if_pos (by simpa [hguard] using hlt), if_pos hlt,
        eventAt_cons_succ pats c s i hi]
      cases hev : eventAt pats s i with
      | none => exact ih (i + 1) (by omega) l1 b1 l2 b2 seen
      | some ev =>
        have hidx := eventAt_idx pats s i ev hev
        cases ev with
        | newline idx len =>
          dsimp only at hidx
          subst hidx
          dsimp only
          have h1 : (ScanEvent.newline (idx + 1) len).next =
              (idx + max len 1) + 1 := by
            rw [ScanEvent.next]; omega
          have h2 : (ScanEvent.newline idx len).next = idx + max len 1 := rfl
          rw [h1, h2]
          exact ih (idx + max len 1) (by omega) _ _ _ _ seen
        | hit idx p len =>
          dsimp only at hidx
          subst hidx
          dsimp only
          have h1 : (ScanEvent.hit (idx + 1) p len).next =
              (idx + max len 1) + 1 := by
            rw [ScanEvent.next]; omega
          have h2 : (ScanEvent.hit idx p len).next = idx + max len 1 := rfl
          rw [h1, h2]
          by_cases hseen : p ∈ seen
          · rw [if_pos hseen, if_pos hseen]
            exact ih (idx + max len 1) (by omega) _ _ _ _ seen
          · rw [if_neg hseen, if_neg hseen]
            simp only [namesOf, List.map_cons]
            exact congrArg _ (ih (idx + max len 1) (by omega) _ _ _ _
              (seen ++ [p]))
    · rw [if_neg (by simpa [hguard] using hlt), if_neg hlt]

end LegacyJS

namespace LegacyJS

theorem newlineLen_indep (b1 b2 : Bool) :
    ∀ (s : List Char), (∀ t, s ≠ '\r' :: '\n' :: t) →
      newlineLen b1 s = newlineLen b2 s := by
  intro s h
  cases s with
  | nil => rfl
  | cons c1 rest =>
    cases rest with
    | nil => rfl
    | cons c2 rest2 =>
      by_cases hc1 : c1 = '\r'
      · by_cases hc2 : c2 = '\n'
        · exact absurd (by rw [hc1, hc2]) (h rest2)
        · rw [newlineLen, newlineLen, if_pos hc1, if_pos hc1, if_neg hc2,
            if_neg hc2]
      · rw [newlineLen, newlineLen, if_neg hc1, if_neg hc1]

theorem newlineLen_lf (b : Bool) (t : List Char) :
    newlineLen b ('\n' :: t) = some 1 := by
  cases t with
  | nil => rw [newlineLen, if_neg (by decide), if_pos rfl]
  | cons c2 rest => rw [newlineLen, if_neg (by decide), if_pos rfl]

theorem eventAt_cons_one (pats : List Pattern) (c : Char) (s : List Char)
    (h : ∀ t, s ≠ '\r' :: '\n' :: t) :
    eventAt pats (c :: s) 1 =
      match eventAt pats s 0 with
      | none => none
      | some (ScanEvent.newline idx len) =>
          some (ScanEvent.newline (idx + 1) len)
      | some (ScanEvent.hit idx p len) =>
          some (ScanEvent.hit (idx + 1) p len) := by
  rw [eventAt, eventAt]
  have hd : (c :: s).drop 1 = s.drop 0 := by simp
  rw [hd, List.drop_zero]
  have h1 : (decide ((1 : Nat) = 0)) = false := by decide
  have h2 : (decide ((0 : Nat) = 0)) = true := by decide
  rw [h1, h2, newlineLen_indep false true s h]
  cases hnl : newlineLen true s with
  | some len => rfl
  | none =>
    dsimp only
    cases hfp : firstPat pats s 0 with
    | some pl => rfl
    | none => rfl

theorem cpmGo_start (pats : List Pattern) (c : Char) (s : List Char) :
    ∀ (f l1 b1 l2 b2 : Nat) (seen : List Nat), s.length < f →
      namesOf (cpmGo pats (c :: s) f 1 l1 b1 seen) =
      namesOf (cpmGo pats s f 0 l2 b2 seen) := by
  intro f l1 b1 l2 b2 seen hf
  obtain ⟨g, rfl⟩ : ∃ g, f = g + 1 := ⟨f - 1, by omega⟩
  by_cases hs : 0 < s.length
  swap
  · rw [cpmGo, cpmGo, if_neg (by simp only [List.length_cons]; omega),
      if_neg (by omega)]
  · rw [cpmGo, cpmGo, if_pos (by simp only [List.length_cons]; omega),
      if_pos hs]
    by_cases hcrlf : ∃ t, s = '\r' :: '\n' :: t
    · obtain ⟨t, rfl⟩ := hcrlf
      have hev0 : eventAt pats ('\r' :: '\n' :: t) 0 =
          some (ScanEvent.newline 0 2) := by
        rw [eventAt, List.drop_zero]
        rw [show (decide ((0 : Nat) = 0)) = true from by decide]
        rw [show newlineLen true ('\r' :: '\n' :: t) = some 2 from by
          rw [newlineLen, if_pos rfl, if_pos rfl]; decide]
      have hev1 : eventAt pats (c :: '\r' :: '\n' :: t) 1 =
          some (ScanEvent.newline 1 1) := by
        rw [eventAt]
        rw [show (c :: '\r' :: '\n' :: t).drop 1 = '\r' :: '\n' :: t from rfl]
        rw [show (decide ((1 : Nat) = 0)) = false from by decide]
        rw [show newlineLen false ('\r' :: '\n' :: t) = some 1 from by
          rw [newlineLen, if_pos rfl, if_pos rfl]; decide]
      rw [hev0, hev1]
      dsimp only
      obtain ⟨g2, rfl⟩ : ∃ g2, g = g2 + 1 := by
        refine ⟨g - 1, ?_⟩
        simp only [List.length_cons] at hf
        omega
      rw [show (ScanEvent.newline 1 1).next = 2 from rfl]
      rw [cpmGo, if_pos (by simp only [List.length_cons]; omega)]
      have hev2 : eventAt pats (c :: '\r' :: '\n' :: t) 2 =
          some (ScanEvent.newline 2 1) := by
        rw [eventAt]
        rw [show (c :: '\r' :: '\n' :: t).drop 2 = '\n' :: t from rfl]
        rw [show (decide ((2 : Nat) = 0)) = false from by decide]
        rw [newlineLen_lf]
      rw [hev2]
      dsimp only
      rw [show (ScanEvent.newline 2 1).next = 3 from rfl,
        show (ScanEvent.newline 0 2).next = 2 from rfl]
      rw [show (3 : Nat) = 2 + 1 from rfl]
      rw [cpmGo_shift pats c ('\r' :: '\n' :: t) g2 2 (by omega)
        (l1 + 1 + 1) 3 (l2 + 1) 1 seen]
      refine congrArg namesOf ?_
      refine cpmGo_fuel_eq pats ('\r' :: '\n' :: t) g2 (g2 + 1) 2 (l2 + 1) 1
        seen ?_ ?_
      · simp only [List.length_cons] at hf ⊢
        omega
      · simp only [List.length_cons] at hf ⊢
        omega
    · push_neg at hcrlf
      rw [eventAt_cons_one pats c s hcrlf]
      cases hev : eventAt pats s 0 with
      | none =>
        dsimp only
        exact cpmGo_shift pats c s g 1 (by omega) l1 b1 l2 b2 seen
      | some ev =>
        have hidx := eventAt_idx pats s 0 ev hev
        cases ev with
        | newline idx len =>
          dsimp only at hidx
          subst hidx
          dsimp only
          rw [show (ScanEvent.newline (0 + 1) len).next = (max len 1) + 1 from
            by rw [ScanEvent.next]; omega]
          rw [show (ScanEvent.newline 0 len).next = max len 1 from
            by rw [ScanEvent.next]; omega]
          exact cpmGo_shift pats c s g (max len 1) (by omega) _ _ _ _ seen
        | hit idx p len =>
          dsimp only at hidx
          subst hidx
          dsimp only
          rw [show (ScanEvent.hit (0 + 1) p len).next = (max len 1) + 1 from
            by rw [ScanEvent.next]; omega]
          rw [show (ScanEvent.hit 0 p len).next = max len 1 from
            by rw [ScanEvent.next]; omega]
          by_cases hseen : p ∈ seen
          · rw [if_pos hseen, if_pos hseen]
            exact cpmGo_shift pats c s g (max len 1) (by omega) _ _ _ _ seen
          · rw [if_neg hseen, if_neg hseen]
            simp only [namesOf, List.map_cons]
            exact congrArg _ (cpmGo_shift pats c s g (max len 1) (by omega)
              _ _ _ _ (seen ++ [p]))

end LegacyJS

namespace LegacyJS

set_option maxRecDepth 40000

/-- Prefixing the input with any character that is not a line terminator and
that no pattern's match can begin with (nor skip, since no pattern matches
the empty string) leaves the set and order of detected signal names
unchanged. -/
theorem cpmMatch_names_cons (pats : List Pattern) (c : Char)
    (hc1 : c ≠ '\r') (hc2 : c ≠ '\n')
    (hp : ∀ p ∈ pats, nullable p.expression = false ∧
      firstCan p.expression c = false) (s : List Char) :
    namesOf (cpmMatch pats (c :: s)) = namesOf (cpmMatch pats s) := by
  rw [cpmMatch, cpmMatch]
  have hlen : (c :: s).length + 1 = (s.length + 1) + 1 := by simp
  rw [hlen]
  rw [cpmGo, if_pos (by simp), eventAt_cons_zero_none pats c s hc1 hc2 hp]
  exact cpmGo_start pats c s (s.length + 1) 0 0 0 0 [] (by omega)

/-- Claim C8: prefixing a snippet with a single leading semicolon or space
never changes which signals are detected — the list of names reported by
`CodePatternMatcher.match` with the catalog patterns on `';' + s` and on
`' ' + s` equals the list reported on `s`, for every snippet `s`. -/
theorem claim_C8 (s : List Char) :
    namesOf (cpmMatch catalogPatterns (';' :: s)) =
      namesOf (cpmMatch catalogPatterns s) ∧
    namesOf (cpmMatch catalogPatterns (' ' :: s)) =
      namesOf (cpmMatch catalogPatterns s) :=
  ⟨cpmMatch_names_cons catalogPatterns ';' (by decide) (by decide)
    (by decide) s,
   cpmMatch_names_cons catalogPatterns ' ' (by decide) (by decide)
    (by decide) s⟩

end LegacyJS
